import Mathlib

/-!
# sequins: refresh orchestrator and request router

A shallow embedding of `sequins.go`: the registry `s.dbs`, the refresh cycle
`refreshAll`, the load-permit wrapper `refresh`, the permit pool created by
`init`, and the router `ServeHTTP`.

Conventions of the embedding.

* A Go `string` is a sequence of elements (`GoString`); the only separator the
  router looks for is the one-element string "/", so positions computed by
  `Index` are positions in that sequence.
* A `*db` is the identity of one unit instance (`DB`), an allocation number:
  `newDB` hands out a number never handed out before. A nil `*db` is the
  absence of a value (`none`).
* A Go `map[string]*db` is an association list with one entry per key
  (`DBMap`); `mapIndex` is `m[k]` and `mapAssign` is `m[k] = v`. The order in
  which `range` visits a map is not fixed by the language, so it is a
  parameter (`RangeOrder`) and every theorem holds for all of them.
* What a function does to its collaborators (the units, the response writer,
  the log) is recorded as the list of effects it performs, in program order.
-/

namespace Sequins

/-! ## Data model -/

/-- A Go string. -/
abbrev GoString := List Char

/-- Identity of one database unit instance (a non-nil `*db`). -/
abbrev DB := Nat

/-- A Go `map[string]*db`; the nil map is the empty list. -/
abbrev DBMap := List (GoString × DB)

/-- Go `m[name]` for a `map[string]*db`: `none` is the nil pointer returned
for a missing key. -/
def mapIndex : DBMap → GoString → Option DB
  | [], _ => none
  | (k, v) :: m, name => if name = k then some v else mapIndex m name

/-- Go `m[name] = db`: overwrite the entry of an existing key, or add one. -/
def mapAssign : DBMap → GoString → DB → DBMap
  | [], name, db => [(name, db)]
  | (k, v) :: m, name, db =>
    if name = k then (k, db) :: m else (k, v) :: mapAssign m name db

/-- Keys of a map. -/
def mapKeys (m : DBMap) : List GoString := m.map Prod.fst

/-- Values of a map. -/
def mapValues (m : DBMap) : List DB := m.map Prod.snd

/-! ## Request router (`ServeHTTP`) -/

/-- Value of `http.StatusBadRequest`. -/
def StatusBadRequest : Nat := 400

/-- Value of `http.StatusNotFound`. -/
def StatusNotFound : Nat := 404

/-- Value of `http.StatusNotImplemented`. -/
def StatusNotImplemented : Nat := 501

/-- Go `url.Values`: each key with the list of its values. -/
abbrev Values := List (GoString × List GoString)

/-- Go `url.Values.Get`: the first value of the key, or the empty string. -/
def Values.Get (v : Values) (key : GoString) : GoString :=
  match v.lookup key with
  | some (x :: _) => x
  | _ => []

/-- The parts of an `*http.Request` the router reads: `r.Method`,
`r.URL.Path` and `r.URL.Query()`. -/
structure Request where
  Method : GoString
  Path : GoString
  Query : Values
deriving DecidableEq, Repr

/-- Go `strings.TrimPrefix`. -/
def TrimPrefix (s pre : GoString) : GoString :=
  if pre.isPrefixOf s then s.drop pre.length else s

/-- Search loop of `strings.Index`: `i` is the position of `s` in the
original string. -/
def indexFrom (substr : GoString) : GoString → Nat → Int
  | [], i => if substr = [] then (i : Int) else -1
  | c :: s, i => if substr.isPrefixOf (c :: s) then (i : Int) else indexFrom substr s (i + 1)

/-- Go `strings.Index`: position of the first occurrence of `substr` in `s`,
or -1. -/
def Index (s substr : GoString) : Int := indexFrom substr s 0

/-- What `ServeHTTP` does, in program order. -/
inductive HTTPEffect where
  /-- The router calls `w.WriteHeader(code)`. -/
  | WriteHeader (code : Nat)
  /-- The router calls `s.serveStatus(w, r)`. -/
  | serveStatus
  /-- The router reads `s.dbs[dbName]` under the read lock. -/
  | dbsLookup (dbName : GoString)
  /-- The router calls `db.serveKey(w, r, key)`. -/
  | serveKey (db : DB) (key : GoString)
deriving DecidableEq, Repr

/-- The split of the path into `(dbName, key)` made by `ServeHTTP`. -/
def parsePath (urlPath : GoString) : GoString × GoString :=
  let path := TrimPrefix urlPath "/".toList
  let split := Index path "/".toList
  if split = -1 then (path, [])
  else (path.take split.toNat, path.drop (split + 1).toNat)

/-- The router `sequins.ServeHTTP`, over the registry `dbs`. -/
def ServeHTTP (dbs : DBMap) (r : Request) : List HTTPEffect :=
  if r.Method ≠ "GET".toList then [.WriteHeader StatusBadRequest]
  else if r.Path = "/".toList then [.serveStatus]
  else
    let (dbName, key) := parsePath r.Path
    if dbName = [] then [.WriteHeader StatusBadRequest]
    else
      match mapIndex dbs dbName with
      | none =>
        if r.Query.Get "proxy".toList ≠ [] then
          [.dbsLookup dbName, .WriteHeader StatusNotImplemented]
        else [.dbsLookup dbName, .WriteHeader StatusNotFound]
      | some db => [.dbsLookup dbName, .serveKey db key]

/-! ## Refresh orchestrator (`refreshAll`) -/

/-- A Go `error` value. -/
abbrev Err := GoString

/-- The order in which one `range` statement visits the entries of a map:
any rearrangement of them. Both `range` loops of one cycle read their order
from the same `RangeOrder`; they walk different maps, and when the two maps
coincide the second loop (the reclaim) has no effect, so nothing is lost. -/
structure RangeOrder where
  order : DBMap → DBMap
  perm : ∀ m, (order m).Perm m

/-- The order in which the entries were inserted. -/
def RangeOrder.insertion : RangeOrder := ⟨id, fun _ => List.Perm.refl _⟩

/-- The reverse of the insertion order. -/
def RangeOrder.reversed : RangeOrder := ⟨List.reverse, fun m => List.reverse_perm m⟩

/-- A buffered Go channel of `bool`, as far as the permit pool uses it: its
capacity and the number of values it holds. -/
structure Chan where
  cap : Nat
  len : Nat
deriving DecidableEq, Repr

/-- Go `ch <- true`: `none` when the channel is full and the send blocks. -/
def Chan.send (ch : Chan) : Option Chan :=
  if ch.len < ch.cap then some { ch with len := ch.len + 1 } else none

/-- Go `<-ch`: `none` when the channel is empty and the receive blocks. -/
def Chan.recv (ch : Chan) : Option Chan :=
  if 0 < ch.len then some { ch with len := ch.len - 1 } else none

/-- The state of a `sequins` the orchestrator reads and writes. -/
structure sequins where
  /-- The registry `s.dbs`. -/
  dbs : DBMap
  /-- The permit pool `s.refreshWorkers`: `none` is the nil channel. -/
  refreshWorkers : Option Chan
  /-- Number of units constructed so far by `newDB` (the allocator). -/
  allocated : Nat
deriving DecidableEq, Repr

/-- What the goroutine running `refreshAll` does, in program order. -/
inductive Event where
  /-- The cycle logs the error of `ListDBs` (and then returns). -/
  | listError (err : Err)
  /-- A unit is constructed: `db = newDB(s, name)`. -/
  | newDB (name : GoString) (db : DB)
  /-- A backfill is launched: `backfills.Add(1)` and
  `go func() { db.backfillVersions(); backfills.Done() }()`. -/
  | goBackfill (db : DB)
  /-- The barrier: `backfills.Wait()` returns. -/
  | backfillsWait
  /-- A refresh is triggered: `go s.refresh(db)`. -/
  | goRefresh (db : DB)
  /-- The registry is published: `s.dbs = newDBs` under the write lock. -/
  | swap (newDBs : DBMap)
  /-- A unit is closed: `db.close()`. -/
  | close (db : DB)
  /-- A unit is deleted: `db.delete()`. -/
  | delete (db : DB)
deriving DecidableEq, Repr

/-- Modelled from the spec: `newDB(s, name)` is defined outside `sequins.go`;
it constructs a new unit. The unit it returns is an instance never returned
before: the next allocation number. -/
def newDB (allocated : Nat) (_name : GoString) : DB × Nat := (allocated, allocated + 1)

/-- The loop `for _, name := range dbs` of `refreshAll`: `sdbs` is the
registry `s.dbs` the loop reads, `newDBs` the candidate map built so far.
Returns the candidate map, the allocator and the events of the loop. -/
def addDBs (sdbs : DBMap) : List GoString → DBMap → Nat → DBMap × Nat × List Event
  | [], newDBs, allocated => (newDBs, allocated, [])
  | name :: rest, newDBs, allocated =>
    match mapIndex sdbs name with
    | some db => addDBs sdbs rest (mapAssign newDBs name db) allocated
    | none =>
      let (db, allocated1) := newDB allocated name
      let (m, a, evs) := addDBs sdbs rest (mapAssign newDBs name db) allocated1
      (m, a, Event.newDB name db :: Event.goBackfill db :: evs)

/-- The loop `for name, db := range oldDBs` of `refreshAll`, over the
entries in the order `range` visits them: `sdbs` is the published registry. -/
def reclaim (sdbs : DBMap) : DBMap → List Event
  | [] => []
  | (name, db) :: rest =>
    if mapIndex sdbs name = none then Event.close db :: Event.delete db :: reclaim sdbs rest
    else reclaim sdbs rest

/-- One cycle, `sequins.refreshAll`: `ListDBs` is what `s.backend.ListDBs()`
returns in this cycle. Returns the state after the cycle and its events. -/
def refreshAll (ro : RangeOrder) (ListDBs : Except Err (List GoString)) (s : sequins) :
    sequins × List Event :=
  match ListDBs with
  | .error err => (s, [Event.listError err])
  | .ok dbs =>
    let (newDBs, allocated, adds) := addDBs s.dbs dbs [] s.allocated
    let refreshes := (ro.order newDBs).map fun e => Event.goRefresh e.2
    let oldDBs := s.dbs
    let s1 : sequins := { s with dbs := newDBs, allocated := allocated }
    (s1, adds ++ [Event.backfillsWait] ++ refreshes ++ [Event.swap newDBs]
      ++ reclaim s1.dbs (ro.order oldDBs))

/-- A sequence of cycles, one after the other (they hold `refreshLock`):
each with its own `range` order and its own `ListDBs` result. Returns the
final state and the events of each cycle. -/
def refreshCycles : List (RangeOrder × Except Err (List GoString)) → sequins →
    sequins × List (List Event)
  | [], s => (s, [])
  | (ro, l) :: rest, s =>
    let (s1, evs) := refreshAll ro l s
    let (s2, evss) := refreshCycles rest s1
    (s2, evs :: evss)

/-- A registry as the cycles build it: one entry per name, no unit under two
names, and every unit in it was constructed by `newDB` earlier. -/
def sequins.WF (s : sequins) : Prop :=
  (mapKeys s.dbs).Nodup ∧ (mapValues s.dbs).Nodup ∧ ∀ db ∈ mapValues s.dbs, db < s.allocated

instance (s : sequins) : Decidable s.WF := by
  unfold sequins.WF
  infer_instance

/-- The state of a `sequins` returned by `newSequins`: no registry yet (the
nil map), no permit pool, nothing constructed. -/
def newSequins : sequins := ⟨[], none, 0⟩

/-- A registry after some cycles, used to try the cycle on: the names `a`
and `c`, registered to the units 0 and 1. -/
def exampleSequins : sequins := ⟨[("a".toList, 0), ("c".toList, 1)], none, 2⟩

/-! ## Permit pool (`init`) and the refresh wrapper (`refresh`) -/

/-- A Go `int` of a 64-bit platform: between -2^63 and 2^63 - 1. -/
structure GoInt where
  val : Int
  inRange : -9223372036854775808 ≤ val ∧ val ≤ 9223372036854775807
deriving DecidableEq

/-- Go `make(chan bool, size)`: the runtime panics when the size is negative
or the buffer is larger than it allocates. `limit` is the largest size it
accepts for a channel of `bool` (`maxAlloc - hchanSize` of the runtime in
use). -/
def makeChan (limit : Nat) (size : Int) : Except String Chan :=
  if size < 0 ∨ (limit : Int) < size then .error "makechan: size out of range"
  else .ok ⟨size.toNat, 0⟩

/-- The loop `for i := 0; i < maxLoads; i++ { s.refreshWorkers <- true }`
of `init`, by the number of iterations left. `none` when a send blocks: the
loop never returns. -/
def fillWorkers : Nat → Chan → Option Chan
  | 0, ch => some ch
  | n + 1, ch =>
    match ch.send with
    | some ch1 => fillWorkers n ch1
    | none => none

/-- How `init` can fail. -/
inductive InitFailure where
  /-- It returns the error. -/
  | returned (err : Err)
  /-- It panics. -/
  | panicked (msg : String)
  /-- It blocks for ever. -/
  | blocked
deriving DecidableEq, Repr

/-- What `init` reads of the configuration and gets from its collaborators. -/
structure InitEnv where
  /-- Whether `s.config.ZK.Servers != nil`. -/
  zkServers : Bool
  /-- What `s.initCluster()` returns; `none` is nil. -/
  initCluster : Option Err
  /-- What `s.initLocalStore()` returns; `none` is nil. -/
  initLocalStore : Option Err
  /-- The configured `s.config.MaxParallelLoads`, a Go `int`. -/
  MaxParallelLoads : GoInt
  /-- The largest buffer `make(chan bool, n)` accepts on the runtime in use:
  its `maxAlloc - hchanSize`. -/
  chanLimit : Nat
  /-- The heap of a 64-bit Go runtime spans at most 2^48 bytes. -/
  chanLimit_lt : chanLimit < 281474976710656
  /-- What `s.backend.ListDBs()` returns in the cycle `init` runs. -/
  ListDBs : Except Err (List GoString)
  /-- The order of the `range` loops in that cycle. -/
  ro : RangeOrder

/-- The function `sequins.init` up to and including its call of
`s.refreshAll()`: the cluster and the local store, the permit pool, the first
cycle. (What follows arms the timer and the signal handler, which call
`refreshAll` again.) Returns the state and the events of the first cycle. -/
def init (env : InitEnv) (s : sequins) : Except InitFailure (sequins × List Event) :=
  match (if env.zkServers then env.initCluster else none) with
  | some err => .error (InitFailure.returned err)
  | none =>
    match env.initLocalStore with
    | some err =>
      .error (InitFailure.returned ("error initializing local store: ".toList ++ err))
    | none =>
      let maxLoads := env.MaxParallelLoads.val
      if maxLoads ≠ 0 then
        match makeChan env.chanLimit maxLoads with
        | .error msg => .error (InitFailure.panicked msg)
        | .ok ch =>
          match fillWorkers maxLoads.toNat ch with
          | none => .error InitFailure.blocked
          | some ch1 => .ok (refreshAll env.ro env.ListDBs { s with refreshWorkers := some ch1 })
      else .ok (refreshAll env.ro env.ListDBs s)

/-- The lines `sequins.refresh` logs for what `db.refresh()` returned. -/
def refreshLog (db : DB) : Option Err → List (DB × Err)
  | some err => [(db, err)]
  | none => []

/-- The function `sequins.refresh` run without interruption, from call to
return: `err` is what `db.refresh()` returns. `none` when the receive (or the
deferred send) blocks. Returns the state and the lines logged. -/
def refresh (s : sequins) (db : DB) (err : Option Err) : Option (sequins × List (DB × Err)) :=
  match s.refreshWorkers with
  | none => some (s, refreshLog db err)
  | some ch =>
    match ch.recv with
    | none => none
    | some ch1 =>
      match ch1.send with
      | none => none
      | some ch2 => some ({ s with refreshWorkers := some ch2 }, refreshLog db err)

/-- Where one invocation of `sequins.refresh` stands. -/
inductive Phase where
  /-- Launched, before the test of `s.refreshWorkers`. -/
  | start
  /-- Inside `db.refresh()`; `permit` tells whether a permit was taken (and
  its release deferred). -/
  | loading (permit : Bool)
  /-- `db.refresh()` has returned; the deferred `s.refreshWorkers <- true` is
  still to run. -/
  | releasing
  /-- Returned. -/
  | done
deriving DecidableEq, Repr

/-- One atomic step of the concurrent refresh wrappers. -/
inductive LoadStep where
  /-- A new invocation is launched: `go s.refresh(db)`. -/
  | go (db : DB)
  /-- Invocation `i` passes `if s.refreshWorkers != nil { <-s.refreshWorkers;
  defer ... }` and calls `db.refresh()`. -/
  | acquire (i : Nat)
  /-- In invocation `i`, `db.refresh()` returns `err` (`none` is nil). -/
  | refreshReturns (i : Nat) (err : Option Err)
  /-- Invocation `i` runs its deferred `s.refreshWorkers <- true`. -/
  | release (i : Nat)
deriving DecidableEq, Repr

/-- The `sequins` together with the invocations of `refresh` launched so
far and the errors they have logged. -/
structure Loads where
  s : sequins
  calls : List (DB × Phase)
  log : List (DB × Err)
deriving DecidableEq, Repr

/-- One step of `sequins.refresh` under a scheduler: `none` when the step is
not enabled (the invocation is blocked, or is not at that point). -/
def Loads.step (st : Loads) : LoadStep → Option Loads
  | .go db => some { st with calls := st.calls ++ [(db, Phase.start)] }
  | .acquire i =>
    match st.calls[i]? with
    | some (db, Phase.start) =>
      match st.s.refreshWorkers with
      | none => some { st with calls := st.calls.set i (db, Phase.loading false) }
      | some ch =>
        match ch.recv with
        | some ch1 => some { st with
            s := { st.s with refreshWorkers := some ch1 }
            calls := st.calls.set i (db, Phase.loading true) }
        | none => none
    | _ => none
  | .refreshReturns i err =>
    match st.calls[i]? with
    | some (db, Phase.loading permit) =>
      some { st with
        calls := st.calls.set i (db, if permit then Phase.releasing else Phase.done)
        log := st.log ++ refreshLog db err }
    | _ => none
  | .release i =>
    match st.calls[i]? with
    | some (db, Phase.releasing) =>
      match st.s.refreshWorkers with
      | none => none
      | some ch =>
        match ch.send with
        | some ch1 => some { st with
            s := { st.s with refreshWorkers := some ch1 }
            calls := st.calls.set i (db, Phase.done) }
        | none => none
    | _ => none

/-- A schedule: the steps the scheduler tries, in order; one that is not
enabled is skipped. -/
def Loads.run : List LoadStep → Loads → Loads
  | [], st => st
  | t :: ts, st =>
    match st.step t with
    | some st1 => Loads.run ts st1
    | none => Loads.run ts st

/-- No invocation of `refresh` launched yet. -/
def Loads.start (s : sequins) : Loads := ⟨s, [], []⟩

/-- A configuration to try `init` on: no cluster, at most two loads at a
time, a backend listing `a`. -/
def exampleInit : InitEnv where
  zkServers := false
  initCluster := none
  initLocalStore := none
  MaxParallelLoads := ⟨2, by decide⟩
  chanLimit := 281474976710560
  chanLimit_lt := by decide
  ListDBs := .ok ["a".toList]
  ro := RangeOrder.insertion

/-- The same configuration with a maximum of 2^62 loads at a time. -/
def hugeInit : InitEnv where
  zkServers := false
  initCluster := none
  initLocalStore := none
  MaxParallelLoads := ⟨4611686018427387904, by decide⟩
  chanLimit := 281474976710560
  chanLimit_lt := by decide
  ListDBs := .ok ["a".toList]
  ro := RangeOrder.insertion

/-- Steps an invocation of `refresh` has yet to take, at most. -/
def Phase.remaining : Phase → Nat
  | .start => 3
  | .loading _ => 2
  | .releasing => 1
  | .done => 0

/-- Steps the invocations launched so far have yet to take, at most. -/
def Loads.remaining (st : Loads) : Nat := (st.calls.map fun c => c.2.remaining).sum

/-- The bookkeeping without a pool: the channel is nil and no invocation
holds a permit. -/
def Loads.Unpooled (st : Loads) : Prop :=
  st.s.refreshWorkers = none ∧
    ∀ c ∈ st.calls, c.2 = Phase.start ∨ c.2 = Phase.loading false ∨ c.2 = Phase.done

/-- A schedule to try the refresh wrappers on: three invocations on two
permits, the first of which gets an error from `db.refresh()`. -/
def exampleLoads : List LoadStep :=
  [.go 5, .go 6, .go 7, .acquire 0, .acquire 1, .acquire 2,
    .refreshReturns 0 (some "down".toList), .release 0, .acquire 2,
    .refreshReturns 1 none, .refreshReturns 2 none, .release 2, .release 1]

/-- Permits available: values held by the channel. -/
def Loads.available (st : Loads) : Nat :=
  match st.s.refreshWorkers with
  | some ch => ch.len
  | none => 0

/-- Permits held: invocations that took a permit and have not put it back. -/
def Loads.held (st : Loads) : Nat :=
  st.calls.countP fun c => c.2 = Phase.loading true ∨ c.2 = Phase.releasing

/-- Refreshes in flight: invocations inside `db.refresh()`. -/
def Loads.inFlight (st : Loads) : Nat :=
  st.calls.countP fun c => c.2 = Phase.loading true ∨ c.2 = Phase.loading false

/-- Every invocation launched so far has returned. -/
def Loads.allDone (st : Loads) : Prop := ∀ c ∈ st.calls, c.2 = Phase.done

instance (st : Loads) : Decidable st.allDone := by
  unfold Loads.allDone
  infer_instance

/-! ## One cycle with its backfill goroutines -/

/-- Where one backfill goroutine `func() { db.backfillVersions();
backfills.Done() }` stands. -/
inductive BackfillPhase where
  /-- Launched; `db.backfillVersions()` not yet run. -/
  | launched
  /-- `db.backfillVersions()` has returned; `backfills.Done()` not yet run. -/
  | backfilled
  /-- Returned. -/
  | done
deriving DecidableEq, Repr

/-- What is observed of a cycle once its goroutines are interleaved. -/
inductive Obs where
  /-- The goroutine running `refreshAll` performs `e`. -/
  | main (e : Event)
  /-- A backfill goroutine runs `db.backfillVersions()` to completion. -/
  | backfillVersions (db : DB)
  /-- A backfill goroutine runs `backfills.Done()`. -/
  | backfillsDone (db : DB)
deriving DecidableEq, Repr

/-- Whose turn it is. -/
inductive Turn where
  /-- The goroutine running `refreshAll`. -/
  | main
  /-- The `i`-th backfill goroutine launched. -/
  | backfill (i : Nat)
deriving DecidableEq, Repr

/-- A cycle in progress: the events `refreshAll` has performed and those it
has yet to perform, the counter of the wait group `backfills`, the backfill
goroutines launched, and everything observed so far, oldest first. -/
structure Cycle where
  performed : List Event
  todo : List Event
  backfills : Nat
  goroutines : List (DB × BackfillPhase)
  trace : List Obs
deriving DecidableEq, Repr

/-- A cycle about to start, for the events `refreshAll` performs. -/
def Cycle.start (events : List Event) : Cycle := ⟨[], events, 0, [], []⟩

/-- One step of the cycle under a scheduler: `none` when the turn is not
enabled. `backfills.Wait()` returns only when the counter is zero; a backfill
goroutine can always take its next step (`db.backfillVersions()` is taken to
return). The refresh goroutines that `refreshAll` launches touch neither the
wait group nor what `refreshAll` reads, so they are left to `Loads.step`. -/
def Cycle.step (c : Cycle) : Turn → Option Cycle
  | .main =>
    match c.todo with
    | [] => none
    | Event.backfillsWait :: rest =>
      if c.backfills = 0 then
        some { c with
          performed := c.performed ++ [Event.backfillsWait]
          todo := rest
          trace := c.trace ++ [Obs.main Event.backfillsWait] }
      else none
    | Event.goBackfill db :: rest =>
      some { c with
        performed := c.performed ++ [Event.goBackfill db]
        todo := rest
        backfills := c.backfills + 1
        goroutines := c.goroutines ++ [(db, BackfillPhase.launched)]
        trace := c.trace ++ [Obs.main (Event.goBackfill db)] }
    | e :: rest =>
      some { c with
        performed := c.performed ++ [e]
        todo := rest
        trace := c.trace ++ [Obs.main e] }
  | .backfill i =>
    match c.goroutines[i]? with
    | some (db, BackfillPhase.launched) =>
      some { c with
        goroutines := c.goroutines.set i (db, BackfillPhase.backfilled)
        trace := c.trace ++ [Obs.backfillVersions db] }
    | some (db, BackfillPhase.backfilled) =>
      some { c with
        backfills := c.backfills - 1
        goroutines := c.goroutines.set i (db, BackfillPhase.done)
        trace := c.trace ++ [Obs.backfillsDone db] }
    | _ => none

/-- A schedule: the turns the scheduler gives, in order; a turn that is not
enabled is skipped. -/
def Cycle.run : List Turn → Cycle → Cycle
  | [], c => c
  | t :: ts, c =>
    match c.step t with
    | some c1 => Cycle.run ts c1
    | none => Cycle.run ts c

/-- The cycle is over: `refreshAll` has returned and so has every backfill
goroutine. -/
def Cycle.finished (c : Cycle) : Prop :=
  c.todo = [] ∧ ∀ g ∈ c.goroutines, g.2 = BackfillPhase.done

instance (c : Cycle) : Decidable c.finished := by
  unfold Cycle.finished
  infer_instance

/-- The bookkeeping of a pool of `K` permits: the channel has capacity `K`,
every permit is either in the channel or held by an invocation, and no
invocation went past the channel without taking one. -/
def Loads.Balanced (K : Nat) (st : Loads) : Prop :=
  ∃ ch, st.s.refreshWorkers = some ch ∧ ch.cap = K ∧ ch.len + st.held = K ∧
    ∀ c ∈ st.calls, c.2 ≠ Phase.loading false

/-- The shape of a cycle's events the barrier relies on: one
`backfills.Wait()`, every launch of a backfill before it, and no refresh
triggered before it. -/
def Barriered (program : List Event) : Prop :=
  ∃ adds rest, program = adds ++ Event.backfillsWait :: rest ∧
    (∀ db, Event.goBackfill db ∉ rest) ∧
    (∀ e ∈ adds, e ≠ Event.backfillsWait ∧ ∀ v, e ≠ Event.goRefresh v)

/-- What holds of a cycle in progress at every moment, for the events
`program` that `refreshAll` performs in this cycle. -/
structure Cycle.Inv (program : List Event) (c : Cycle) : Prop where
  /-- The events performed and those left are the cycle's events. -/
  prog : c.performed ++ c.todo = program
  /-- The wait group counts the backfill goroutines that have not returned. -/
  counter : c.backfills = c.goroutines.countP fun g => decide (g.2 ≠ BackfillPhase.done)
  /-- One goroutine per backfill launched. -/
  launch : ∀ db : DB, (c.goroutines.countP fun g => decide (g.1 = db)) =
    List.count (Event.goBackfill db) c.performed
  /-- One `backfillVersions` per goroutine that is past it. -/
  ran : ∀ db : DB, List.count (Obs.backfillVersions db) c.trace =
    c.goroutines.countP fun g => decide (g.1 = db ∧ g.2 ≠ BackfillPhase.launched)
  /-- Once the barrier is passed every backfill of the cycle has run. -/
  waited : Event.backfillsWait ∈ c.performed →
    ∀ db, Event.goBackfill db ∈ program → Obs.backfillVersions db ∈ c.trace
  /-- Every backfill of the cycle has run before any refresh is triggered. -/
  barrier : ∀ pre v post, c.trace = pre ++ Obs.main (Event.goRefresh v) :: post →
    ∀ db, Event.goBackfill db ∈ program → Obs.backfillVersions db ∈ pre

/-- Steps a backfill goroutine has yet to take. -/
def BackfillPhase.remaining : BackfillPhase → Nat
  | .launched => 2
  | .backfilled => 1
  | .done => 0

/-- Steps an event of `refreshAll` stands for: its own, and the two of the
goroutine it launches. -/
def Event.remaining : Event → Nat
  | .goBackfill _ => 3
  | _ => 1

/-- Steps left in a cycle in progress. -/
def Cycle.remaining (c : Cycle) : Nat :=
  (c.todo.map Event.remaining).sum + (c.goroutines.map fun g => g.2.remaining).sum

/-! ## Path parsing -/

theorem slash_toList : "/".toList = ['/'] := rfl

theorem TrimPrefix_slash_cons (s : GoString) : TrimPrefix ('/' :: s) ['/'] = s := by
  simp [TrimPrefix, List.isPrefixOf]

theorem indexFrom_slash_none (name : GoString) (i : Nat) (h : '/' ∉ name) :
    indexFrom ['/'] name i = -1 := by
  induction name generalizing i with
  | nil => simp [indexFrom]
  | cons c s ih =>
    simp only [List.mem_cons, not_or] at h
    simp [indexFrom, List.isPrefixOf, h.1, ih (i + 1) h.2]

theorem indexFrom_slash_first (name key : GoString) (i : Nat) (h : '/' ∉ name) :
    indexFrom ['/'] (name ++ '/' :: key) i = ((i + name.length : Nat) : Int) := by
  induction name generalizing i with
  | nil => simp [indexFrom, List.isPrefixOf]
  | cons c s ih =>
    simp only [List.mem_cons, not_or] at h
    simp [indexFrom, List.isPrefixOf, h.1, ih (i + 1) h.2]
    omega

theorem parsePath_name_key (name key : GoString) (h : '/' ∉ name) :
    parsePath ('/' :: (name ++ '/' :: key)) = (name, key) := by
  have hne : ((name.length : Nat) : Int) ≠ -1 := by omega
  simp only [parsePath, slash_toList, TrimPrefix_slash_cons, Index,
    indexFrom_slash_first name key 0 h, Nat.zero_add]
  rw [if_neg hne]
  have h2 : ((name.length : Int) + 1).toNat = name.length + 1 := by omega
  simp [h2]

theorem parsePath_name (name : GoString) (h : '/' ∉ name) :
    parsePath ('/' :: name) = (name, []) := by
  simp [parsePath, slash_toList, TrimPrefix_slash_cons, Index, indexFrom_slash_none name 0 h]

/-! ## The router -/

/-- The router's answer when the method is not GET. -/
theorem ServeHTTP_not_get (dbs : DBMap) (r : Request) (h : r.Method ≠ "GET".toList) :
    ServeHTTP dbs r = [HTTPEffect.WriteHeader StatusBadRequest] := by
  unfold ServeHTTP
  rw [if_pos h]

/-- The router's answer to a GET of the root path. -/
theorem ServeHTTP_root (dbs : DBMap) (r : Request) (hm : r.Method = "GET".toList)
    (hp : r.Path = "/".toList) : ServeHTTP dbs r = [HTTPEffect.serveStatus] := by
  unfold ServeHTTP
  rw [if_neg (not_not.mpr hm), if_pos hp]

/-- The router's answer to a GET whose database name is empty. -/
theorem ServeHTTP_empty_name (dbs : DBMap) (r : Request) (hm : r.Method = "GET".toList)
    (hp : r.Path ≠ "/".toList) (hn : (parsePath r.Path).1 = []) :
    ServeHTTP dbs r = [HTTPEffect.WriteHeader StatusBadRequest] := by
  unfold ServeHTTP
  rw [if_neg (not_not.mpr hm), if_neg hp]
  rcases hpp : parsePath r.Path with ⟨dbName, key⟩
  rw [hpp] at hn
  simp only at hn
  simp [hn]

/-- The router's answer to a GET that reaches the registry lookup. -/
theorem ServeHTTP_lookup (dbs : DBMap) (r : Request) (hm : r.Method = "GET".toList)
    (hp : r.Path ≠ "/".toList) (hn : (parsePath r.Path).1 ≠ []) :
    ServeHTTP dbs r = HTTPEffect.dbsLookup (parsePath r.Path).1 ::
      (match mapIndex dbs (parsePath r.Path).1 with
       | none =>
         if r.Query.Get "proxy".toList ≠ [] then [HTTPEffect.WriteHeader StatusNotImplemented]
         else [HTTPEffect.WriteHeader StatusNotFound]
       | some db => [HTTPEffect.serveKey db (parsePath r.Path).2]) := by
  unfold ServeHTTP
  rw [if_neg (not_not.mpr hm), if_neg hp]
  rcases hpp : parsePath r.Path with ⟨dbName, key⟩
  rw [hpp] at hn
  simp only at hn
  simp only [hn, if_false]
  cases mapIndex dbs dbName with
  | none =>
    by_cases hq : r.Query.Get "proxy".toList = []
    · simp only [hq, ne_eq, not_true_eq_false, if_false]
    · simp only [hq, ne_eq, not_false_eq_true, if_true]
  | some db => rfl


/-! ## Maps -/

theorem mapIndex_mapAssign (m : DBMap) (name : GoString) (db : DB) (x : GoString) :
    mapIndex (mapAssign m name db) x = if x = name then some db else mapIndex m x := by
  induction m with
  | nil => simp [mapAssign, mapIndex]
  | cons e m ih =>
    rcases e with ⟨k, v⟩
    by_cases hk : name = k
    · subst hk
      by_cases hx : x = name <;> simp [mapAssign, mapIndex, hx]
    · by_cases hx : x = k
      · subst hx
        have : ¬ x = name := fun e => hk e.symm
        simp [mapAssign, mapIndex, hk, this]
      · simp [mapAssign, mapIndex, hk, hx, ih]

theorem mapIndex_eq_none_iff (m : DBMap) (x : GoString) :
    mapIndex m x = none ↔ x ∉ mapKeys m := by
  induction m with
  | nil => simp [mapIndex, mapKeys]
  | cons e m ih =>
    rcases e with ⟨k, v⟩
    by_cases hx : x = k
    · simp [mapIndex, mapKeys, hx]
    · simpa [mapIndex, mapKeys, hx] using ih

theorem mem_of_mapIndex {m : DBMap} {x : GoString} {v : DB} (h : mapIndex m x = some v) :
    (x, v) ∈ m := by
  induction m with
  | nil => simp [mapIndex] at h
  | cons e m ih =>
    rcases e with ⟨k, w⟩
    by_cases hx : x = k
    · simp [mapIndex, hx] at h
      simp [hx, h]
    · simp [mapIndex, hx] at h
      exact List.mem_cons_of_mem _ (ih h)

theorem mapIndex_of_mem {m : DBMap} {x : GoString} {v : DB} (hk : (mapKeys m).Nodup)
    (h : (x, v) ∈ m) : mapIndex m x = some v := by
  induction m with
  | nil => simp at h
  | cons e m ih =>
    rcases e with ⟨k, w⟩
    simp only [mapKeys, List.map_cons, List.nodup_cons] at hk
    rcases List.mem_cons.mp h with h1 | h1
    · cases h1
      simp [mapIndex]
    · have hx : x ≠ k := by
        rintro rfl
        exact hk.1 (List.mem_map_of_mem Prod.fst h1)
      simp [mapIndex, hx, ih hk.2 h1]

theorem mem_mapValues_iff (m : DBMap) (v : DB) :
    v ∈ mapValues m ↔ ∃ x, (x, v) ∈ m := by
  simp [mapValues]

theorem mem_mapValues_of_mapIndex {m : DBMap} {x : GoString} {v : DB}
    (h : mapIndex m x = some v) : v ∈ mapValues m :=
  (mem_mapValues_iff m v).mpr ⟨x, mem_of_mapIndex h⟩

theorem mapKeys_mapAssign (m : DBMap) (name : GoString) (db : DB) :
    mapKeys (mapAssign m name db) = if name ∈ mapKeys m then mapKeys m else mapKeys m ++ [name] := by
  induction m with
  | nil => simp [mapAssign, mapKeys]
  | cons e m ih =>
    rcases e with ⟨k, v⟩
    by_cases hk : name = k
    · simp [mapAssign, mapKeys, hk]
    · simp only [mapKeys] at ih
      by_cases hm : name ∈ List.map Prod.fst m
      · simp [mapAssign, mapKeys, hk, hm, ih]
      · simp [mapAssign, mapKeys, hk, hm, ih]

theorem mem_mapKeys_mapAssign (m : DBMap) (name : GoString) (db : DB) (x : GoString) :
    x ∈ mapKeys (mapAssign m name db) ↔ x = name ∨ x ∈ mapKeys m := by
  rw [mapKeys_mapAssign]
  by_cases hm : name ∈ mapKeys m
  · simp only [hm, if_true]
    constructor
    · exact Or.inr
    · rintro (rfl | h)
      · exact hm
      · exact h
  · simp only [hm, if_false, List.mem_append, List.mem_singleton]
    tauto

theorem nodup_mapKeys_mapAssign (m : DBMap) (name : GoString) (db : DB)
    (h : (mapKeys m).Nodup) : (mapKeys (mapAssign m name db)).Nodup := by
  rw [mapKeys_mapAssign]
  by_cases hm : name ∈ mapKeys m
  · simpa [hm] using h
  · simp only [hm, if_false]
    exact List.Nodup.append h (List.nodup_singleton _) (by simpa using hm)

/-- In a map with one entry per key, distinct keys hold distinct units
exactly when the list of values has no repetition. -/
theorem nodup_mapValues_of_injective (m : DBMap) (hk : (mapKeys m).Nodup)
    (hinj : ∀ x y v, mapIndex m x = some v → mapIndex m y = some v → x = y) :
    (mapValues m).Nodup := by
  have hm : m.Nodup := List.Nodup.of_map _ hk
  refine List.Nodup.map_on ?_ hm
  rintro ⟨a, v⟩ ha ⟨b, w⟩ hb hvw
  simp only at hvw
  subst hvw
  have := hinj a b v (mapIndex_of_mem hk ha) (mapIndex_of_mem hk hb)
  rw [this]

theorem injective_of_nodup_mapValues (m : DBMap) (hv : (mapValues m).Nodup)
    (x y : GoString) (v : DB) (hx : mapIndex m x = some v) (hy : mapIndex m y = some v) :
    x = y := by
  have := List.inj_on_of_nodup_map hv (mem_of_mapIndex hx) (mem_of_mapIndex hy) rfl
  exact congrArg Prod.fst this

/-! ## The discovery loop -/

theorem addDBs_cons_some (sdbs : DBMap) (name : GoString) (rest : List GoString)
    (acc : DBMap) (n : Nat) (db : DB) (h : mapIndex sdbs name = some db) :
    addDBs sdbs (name :: rest) acc n = addDBs sdbs rest (mapAssign acc name db) n := by
  simp [addDBs, h]

theorem addDBs_cons_none (sdbs : DBMap) (name : GoString) (rest : List GoString)
    (acc : DBMap) (n : Nat) (h : mapIndex sdbs name = none) :
    addDBs sdbs (name :: rest) acc n =
      ((addDBs sdbs rest (mapAssign acc name n) (n + 1)).1,
       (addDBs sdbs rest (mapAssign acc name n) (n + 1)).2.1,
       Event.newDB name n :: Event.goBackfill n ::
         (addDBs sdbs rest (mapAssign acc name n) (n + 1)).2.2) := by
  simp [addDBs, h, newDB]

theorem addDBs_allocated_le (sdbs : DBMap) (names : List GoString) (acc : DBMap) (n : Nat) :
    n ≤ (addDBs sdbs names acc n).2.1 := by
  induction names generalizing acc n with
  | nil => simp [addDBs]
  | cons name rest ih =>
    cases h : mapIndex sdbs name with
    | some db => rw [addDBs_cons_some _ _ _ _ _ _ h]; exact ih _ _
    | none =>
      rw [addDBs_cons_none _ _ _ _ _ h]
      exact Nat.le_of_succ_le (ih _ _)

theorem addDBs_count_goBackfill (sdbs : DBMap) (names : List GoString) (acc : DBMap)
    (n : Nat) (db : DB) :
    List.count (Event.goBackfill db) (addDBs sdbs names acc n).2.2 =
      if n ≤ db ∧ db < (addDBs sdbs names acc n).2.1 then 1 else 0 := by
  induction names generalizing acc n with
  | nil =>
    simp only [addDBs, List.count_nil, DB]
    split_ifs <;> omega
  | cons name rest ih =>
    cases h : mapIndex sdbs name with
    | some d => rw [addDBs_cons_some _ _ _ _ _ _ h]; exact ih _ _
    | none =>
      rw [addDBs_cons_none _ _ _ _ _ h]
      have hle := addDBs_allocated_le sdbs rest (mapAssign acc name n) (n + 1)
      simp only [List.count_cons, ih, beq_iff_eq, Event.goBackfill.injEq]
      simp only [reduceCtorEq, if_false, Nat.add_zero]
      simp only [DB] at *
      split_ifs <;> omega

theorem addDBs_newDB_mem (sdbs : DBMap) (names : List GoString) (acc : DBMap)
    (n : Nat) (name : GoString) (db : DB)
    (h : Event.newDB name db ∈ (addDBs sdbs names acc n).2.2) :
    name ∈ names ∧ mapIndex sdbs name = none ∧ n ≤ db ∧ db < (addDBs sdbs names acc n).2.1 := by
  induction names generalizing acc n with
  | nil => simp [addDBs] at h
  | cons x rest ih =>
    cases hx : mapIndex sdbs x with
    | some d =>
      rw [addDBs_cons_some _ _ _ _ _ _ hx] at h ⊢
      obtain ⟨h1, h2, h3, h4⟩ := ih _ _ h
      exact ⟨List.mem_cons_of_mem _ h1, h2, h3, h4⟩
    | none =>
      rw [addDBs_cons_none _ _ _ _ _ hx] at h ⊢
      have hle := addDBs_allocated_le sdbs rest (mapAssign acc x n) (n + 1)
      simp only [List.mem_cons, Event.newDB.injEq, reduceCtorEq, false_or] at h
      rcases h with ⟨rfl, rfl⟩ | h
      · exact ⟨List.mem_cons_self _ _, hx, le_refl _, hle⟩
      · obtain ⟨h1, h2, h3, h4⟩ := ih _ _ h
        exact ⟨List.mem_cons_of_mem _ h1, h2, Nat.le_of_succ_le h3, h4⟩

theorem addDBs_exists_newDB (sdbs : DBMap) (names : List GoString) (acc : DBMap)
    (n : Nat) (db : DB) (h1 : n ≤ db) (h2 : db < (addDBs sdbs names acc n).2.1) :
    ∃ name, Event.newDB name db ∈ (addDBs sdbs names acc n).2.2 := by
  induction names generalizing acc n with
  | nil =>
    simp only [addDBs, DB] at h1 h2
    omega
  | cons x rest ih =>
    cases hx : mapIndex sdbs x with
    | some d =>
      rw [addDBs_cons_some _ _ _ _ _ _ hx] at h2 ⊢
      exact ih _ _ h1 h2
    | none =>
      rw [addDBs_cons_none _ _ _ _ _ hx] at h2 ⊢
      by_cases hd : db = n
      · exact ⟨x, by simp [hd]⟩
      · have h3 : n + 1 ≤ db := by
          simp only [DB] at *
          omega
        obtain ⟨name, hname⟩ := ih (mapAssign acc x n) (n + 1) h3 h2
        exact ⟨name, List.mem_cons_of_mem _ (List.mem_cons_of_mem _ hname)⟩

theorem addDBs_events_shape (sdbs : DBMap) (names : List GoString) (acc : DBMap)
    (n : Nat) (e : Event) (h : e ∈ (addDBs sdbs names acc n).2.2) :
    (∃ name db, e = Event.newDB name db) ∨ ∃ db, e = Event.goBackfill db := by
  induction names generalizing acc n with
  | nil => simp [addDBs] at h
  | cons x rest ih =>
    cases hx : mapIndex sdbs x with
    | some d =>
      rw [addDBs_cons_some _ _ _ _ _ _ hx] at h
      exact ih _ _ h
    | none =>
      rw [addDBs_cons_none _ _ _ _ _ hx] at h
      simp only [List.mem_cons] at h
      rcases h with rfl | rfl | h
      · exact Or.inl ⟨_, _, rfl⟩
      · exact Or.inr ⟨_, rfl⟩
      · exact ih _ _ h

theorem addDBs_mapIndex_not_mem (sdbs : DBMap) (names : List GoString) (acc : DBMap)
    (n : Nat) (x : GoString) (h : x ∉ names) :
    mapIndex (addDBs sdbs names acc n).1 x = mapIndex acc x := by
  induction names generalizing acc n with
  | nil => simp [addDBs]
  | cons y rest ih =>
    simp only [List.mem_cons, not_or] at h
    cases hy : mapIndex sdbs y with
    | some d =>
      rw [addDBs_cons_some _ _ _ _ _ _ hy, ih _ _ h.2, mapIndex_mapAssign, if_neg h.1]
    | none =>
      rw [addDBs_cons_none _ _ _ _ _ hy]
      simp only
      rw [ih _ _ h.2, mapIndex_mapAssign, if_neg h.1]

theorem addDBs_mapIndex_reuse (sdbs : DBMap) (names : List GoString) (acc : DBMap)
    (n : Nat) (x : GoString) (db : DB) (h : x ∈ names) (hx : mapIndex sdbs x = some db) :
    mapIndex (addDBs sdbs names acc n).1 x = some db := by
  induction names generalizing acc n with
  | nil => simp at h
  | cons y rest ih =>
    by_cases hr : x ∈ rest
    · cases hy : mapIndex sdbs y with
      | some d => rw [addDBs_cons_some _ _ _ _ _ _ hy]; exact ih _ _ hr
      | none => rw [addDBs_cons_none _ _ _ _ _ hy]; exact ih _ _ hr
    · have hxy : x = y := by
        rcases List.mem_cons.mp h with h1 | h1
        · exact h1
        · exact absurd h1 hr
      subst hxy
      rw [addDBs_cons_some _ _ _ _ _ _ hx, addDBs_mapIndex_not_mem _ _ _ _ _ hr,
        mapIndex_mapAssign, if_pos rfl]

theorem addDBs_mapIndex_new (sdbs : DBMap) (names : List GoString) (acc : DBMap)
    (n : Nat) (x : GoString) (h : x ∈ names) (hx : mapIndex sdbs x = none) :
    ∃ db, mapIndex (addDBs sdbs names acc n).1 x = some db ∧
      Event.newDB x db ∈ (addDBs sdbs names acc n).2.2 := by
  induction names generalizing acc n with
  | nil => simp at h
  | cons y rest ih =>
    by_cases hr : x ∈ rest
    · cases hy : mapIndex sdbs y with
      | some d => rw [addDBs_cons_some _ _ _ _ _ _ hy]; exact ih _ _ hr
      | none =>
        rw [addDBs_cons_none _ _ _ _ _ hy]
        obtain ⟨db, h1, h2⟩ := ih (mapAssign acc y n) (n + 1) hr
        exact ⟨db, h1, List.mem_cons_of_mem _ (List.mem_cons_of_mem _ h2)⟩
    · have hxy : x = y := by
        rcases List.mem_cons.mp h with h1 | h1
        · exact h1
        · exact absurd h1 hr
      subst hxy
      rw [addDBs_cons_none _ _ _ _ _ hx]
      refine ⟨n, ?_, List.mem_cons_self _ _⟩
      simp only
      rw [addDBs_mapIndex_not_mem _ _ _ _ _ hr, mapIndex_mapAssign, if_pos rfl]

theorem addDBs_mem_keys (sdbs : DBMap) (names : List GoString) (acc : DBMap)
    (n : Nat) (x : GoString) :
    x ∈ mapKeys (addDBs sdbs names acc n).1 ↔ x ∈ names ∨ x ∈ mapKeys acc := by
  induction names generalizing acc n with
  | nil => simp [addDBs]
  | cons y rest ih =>
    cases hy : mapIndex sdbs y with
    | some d =>
      rw [addDBs_cons_some _ _ _ _ _ _ hy, ih, mem_mapKeys_mapAssign, List.mem_cons]
      tauto
    | none =>
      rw [addDBs_cons_none _ _ _ _ _ hy]
      simp only
      rw [ih, mem_mapKeys_mapAssign, List.mem_cons]
      tauto

theorem addDBs_nodup_keys (sdbs : DBMap) (names : List GoString) (acc : DBMap)
    (n : Nat) (h : (mapKeys acc).Nodup) : (mapKeys (addDBs sdbs names acc n).1).Nodup := by
  induction names generalizing acc n with
  | nil => simpa [addDBs] using h
  | cons y rest ih =>
    cases hy : mapIndex sdbs y with
    | some d =>
      rw [addDBs_cons_some _ _ _ _ _ _ hy]
      exact ih _ _ (nodup_mapKeys_mapAssign _ _ _ h)
    | none =>
      rw [addDBs_cons_none _ _ _ _ _ hy]
      exact ih _ _ (nodup_mapKeys_mapAssign _ _ _ h)

theorem addDBs_newDB_unique (sdbs : DBMap) (names : List GoString) (acc : DBMap)
    (n : Nat) (x y : GoString) (db : DB)
    (hx : Event.newDB x db ∈ (addDBs sdbs names acc n).2.2)
    (hy : Event.newDB y db ∈ (addDBs sdbs names acc n).2.2) : x = y := by
  induction names generalizing acc n with
  | nil => simp [addDBs] at hx
  | cons z rest ih =>
    cases hz : mapIndex sdbs z with
    | some d =>
      rw [addDBs_cons_some _ _ _ _ _ _ hz] at hx hy
      exact ih _ _ hx hy
    | none =>
      rw [addDBs_cons_none _ _ _ _ _ hz] at hx hy
      simp only [List.mem_cons, Event.newDB.injEq, reduceCtorEq, false_or] at hx hy
      rcases hx with ⟨rfl, rfl⟩ | hx
      · rcases hy with ⟨rfl, _⟩ | hy
        · rfl
        · have := (addDBs_newDB_mem _ _ _ _ _ _ hy).2.2.1
          simp only [DB] at *
          omega
      · rcases hy with ⟨rfl, rfl⟩ | hy
        · have := (addDBs_newDB_mem _ _ _ _ _ _ hx).2.2.1
          simp only [DB] at *
          omega
        · exact ih _ _ hx hy

/-- Where a unit of the candidate map comes from: the registry, under the
same name, or `newDB` in this loop, for that name. -/
theorem addDBs_provenance (sdbs : DBMap) (names : List GoString) (n : Nat)
    (x : GoString) (db : DB) (h : mapIndex (addDBs sdbs names [] n).1 x = some db) :
    x ∈ names ∧ (mapIndex sdbs x = some db ∨
      (mapIndex sdbs x = none ∧ Event.newDB x db ∈ (addDBs sdbs names [] n).2.2)) := by
  have hmem : x ∈ names := by
    by_contra hc
    rw [addDBs_mapIndex_not_mem _ _ _ _ _ hc] at h
    simp [mapIndex] at h
  refine ⟨hmem, ?_⟩
  cases hx : mapIndex sdbs x with
  | some d =>
    rw [addDBs_mapIndex_reuse _ _ _ _ _ _ hmem hx] at h
    exact Or.inl h
  | none =>
    obtain ⟨d, h1, h2⟩ := addDBs_mapIndex_new sdbs names [] n x hmem hx
    rw [h1] at h
    cases h
    exact Or.inr ⟨rfl, h2⟩

/-! ## The reclaim loop -/

theorem mem_reclaim (cur l : DBMap) (e : Event) (h : e ∈ reclaim cur l) :
    ∃ name db, (name, db) ∈ l ∧ mapIndex cur name = none ∧
      (e = Event.close db ∨ e = Event.delete db) := by
  induction l with
  | nil => simp [reclaim] at h
  | cons a l ih =>
    rcases a with ⟨k, v⟩
    by_cases hk : mapIndex cur k = none
    · simp only [reclaim, hk, if_true, List.mem_cons] at h
      rcases h with rfl | rfl | h
      · exact ⟨k, v, List.mem_cons_self _ _, hk, Or.inl rfl⟩
      · exact ⟨k, v, List.mem_cons_self _ _, hk, Or.inr rfl⟩
      · obtain ⟨name, db, h1, h2, h3⟩ := ih h
        exact ⟨name, db, List.mem_cons_of_mem _ h1, h2, h3⟩
    · simp only [reclaim, hk, if_false] at h
      obtain ⟨name, db, h1, h2, h3⟩ := ih h
      exact ⟨name, db, List.mem_cons_of_mem _ h1, h2, h3⟩

theorem count_close_reclaim (cur l : DBMap) (db : DB) :
    List.count (Event.close db) (reclaim cur l) =
      l.countP fun e => decide (e.2 = db ∧ mapIndex cur e.1 = none) := by
  induction l with
  | nil => simp [reclaim]
  | cons a l ih =>
    rcases a with ⟨k, v⟩
    by_cases hk : mapIndex cur k = none
    · by_cases hv : v = db
      · simp [reclaim, hk, hv, List.count_cons, List.countP_cons, ih]
      · simp [reclaim, hk, hv, List.count_cons, List.countP_cons, ih]
    · simp [reclaim, hk, List.countP_cons, ih]

theorem count_delete_reclaim (cur l : DBMap) (db : DB) :
    List.count (Event.delete db) (reclaim cur l) =
      l.countP fun e => decide (e.2 = db ∧ mapIndex cur e.1 = none) := by
  induction l with
  | nil => simp [reclaim]
  | cons a l ih =>
    rcases a with ⟨k, v⟩
    by_cases hk : mapIndex cur k = none
    · by_cases hv : v = db
      · simp [reclaim, hk, hv, List.count_cons, List.countP_cons, ih]
      · simp [reclaim, hk, hv, List.count_cons, List.countP_cons, ih]
    · simp [reclaim, hk, List.countP_cons, ih]

theorem close_delete_sublist_reclaim (cur l : DBMap) (name : GoString) (db : DB)
    (hmem : (name, db) ∈ l) (hcur : mapIndex cur name = none) :
    List.Sublist [Event.close db, Event.delete db] (reclaim cur l) := by
  induction l with
  | nil => simp at hmem
  | cons a l ih =>
    rcases a with ⟨k, v⟩
    rcases List.mem_cons.mp hmem with h | h
    · cases h
      simp only [reclaim, hcur, if_true]
      exact List.Sublist.cons₂ _ (List.Sublist.cons₂ _ (List.nil_sublist _))
    · by_cases hk : mapIndex cur k = none
      · simp only [reclaim, hk, if_true]
        exact List.Sublist.cons _ (List.Sublist.cons _ (ih h))
      · simp only [reclaim, hk, if_false]
        exact ih h

/-- In a registry with no unit under two names, at most one entry holds
`db` under a name missing from `cur`. -/
theorem countP_reclaimed_le (cur old : DBMap) (db : DB) (hv : (mapValues old).Nodup) :
    (old.countP fun e => decide (e.2 = db ∧ mapIndex cur e.1 = none)) ≤ 1 := by
  have h1 : (old.countP fun e => decide (e.2 = db ∧ mapIndex cur e.1 = none)) ≤
      old.countP fun e => e.2 == db := by
    apply List.countP_mono_left
    intro e _ he
    simp only [decide_eq_true_eq] at he
    simp [he.1]
  have h2 : (old.countP fun e => e.2 == db) = List.count db (mapValues old) := by
    rw [mapValues, List.count, List.countP_map]
    rfl
  have h3 := List.nodup_iff_count_le_one.mp hv db
  omega

theorem countP_reclaimed_pos (cur old : DBMap) (db : DB) (hv : (mapValues old).Nodup)
    (name : GoString) (hmem : (name, db) ∈ old) (hcur : mapIndex cur name = none) :
    (old.countP fun e => decide (e.2 = db ∧ mapIndex cur e.1 = none)) = 1 := by
  have h1 := countP_reclaimed_le cur old db hv
  have h2 : 0 < old.countP fun e => decide (e.2 = db ∧ mapIndex cur e.1 = none) :=
    List.countP_pos_iff.mpr ⟨(name, db), hmem, by simp [hcur]⟩
  omega

theorem countP_reclaimed_zero (cur old : DBMap) (db : DB)
    (h : ¬ ∃ name, (name, db) ∈ old ∧ mapIndex cur name = none) :
    (old.countP fun e => decide (e.2 = db ∧ mapIndex cur e.1 = none)) = 0 := by
  rw [List.countP_eq_zero]
  rintro ⟨k, v⟩ hmem hp
  simp only [decide_eq_true_eq] at hp
  exact h ⟨k, hp.1 ▸ hmem, hp.2⟩

/-! ## One cycle -/

theorem refreshAll_error (ro : RangeOrder) (err : Err) (s : sequins) :
    refreshAll ro (.error err) s = (s, [Event.listError err]) := rfl

/-- The cycle after a successful listing, with the tuple of the discovery
loop spelled out. -/
theorem refreshAll_ok (ro : RangeOrder) (dbs : List GoString) (s : sequins) :
    refreshAll ro (.ok dbs) s =
      (⟨(addDBs s.dbs dbs [] s.allocated).1, s.refreshWorkers,
          (addDBs s.dbs dbs [] s.allocated).2.1⟩,
        (addDBs s.dbs dbs [] s.allocated).2.2 ++ [Event.backfillsWait]
          ++ (ro.order (addDBs s.dbs dbs [] s.allocated).1).map (fun e => Event.goRefresh e.2)
          ++ [Event.swap (addDBs s.dbs dbs [] s.allocated).1]
          ++ reclaim (addDBs s.dbs dbs [] s.allocated).1 (ro.order s.dbs)) := rfl

theorem count_adds_zero (sdbs : DBMap) (names : List GoString) (acc : DBMap) (n : Nat)
    (e : Event) (h1 : ∀ name db, e ≠ Event.newDB name db) (h2 : ∀ db, e ≠ Event.goBackfill db) :
    List.count e (addDBs sdbs names acc n).2.2 = 0 := by
  apply List.count_eq_zero_of_not_mem
  intro hmem
  rcases addDBs_events_shape _ _ _ _ _ hmem with ⟨name, db, h⟩ | ⟨db, h⟩
  · exact h1 _ _ h
  · exact h2 _ h

theorem count_refreshes_zero (m : DBMap) (e : Event) (h : ∀ db, e ≠ Event.goRefresh db) :
    List.count e (m.map fun x => Event.goRefresh x.2) = 0 := by
  apply List.count_eq_zero_of_not_mem
  intro hmem
  obtain ⟨x, _, hx⟩ := List.mem_map.mp hmem
  exact h _ hx.symm

theorem count_reclaim_zero (cur l : DBMap) (e : Event) (h1 : ∀ db, e ≠ Event.close db)
    (h2 : ∀ db, e ≠ Event.delete db) : List.count e (reclaim cur l) = 0 := by
  apply List.count_eq_zero_of_not_mem
  intro hmem
  obtain ⟨_, db, _, _, h | h⟩ := mem_reclaim _ _ _ hmem
  · exact h1 _ h
  · exact h2 _ h

theorem count_goRefresh_map (m : DBMap) (db : DB) :
    List.count (Event.goRefresh db) (m.map fun x => Event.goRefresh x.2) =
      List.count db (mapValues m) := by
  have : (m.map fun x => Event.goRefresh x.2) = (mapValues m).map Event.goRefresh := by
    simp [mapValues]
  rw [this]
  exact List.count_map_of_injective _ _ (fun a b h => by cases h; rfl) _

theorem refreshAll_count_goBackfill (ro : RangeOrder) (dbs : List GoString) (s : sequins)
    (db : DB) :
    List.count (Event.goBackfill db) (refreshAll ro (.ok dbs) s).2 =
      List.count (Event.goBackfill db) (addDBs s.dbs dbs [] s.allocated).2.2 := by
  rw [refreshAll_ok]
  simp only [List.count_append]
  rw [count_refreshes_zero _ _ (by simp), count_reclaim_zero _ _ _ (by simp) (by simp)]
  simp

theorem refreshAll_count_goRefresh (ro : RangeOrder) (dbs : List GoString) (s : sequins)
    (db : DB) :
    List.count (Event.goRefresh db) (refreshAll ro (.ok dbs) s).2 =
      List.count db (mapValues (refreshAll ro (.ok dbs) s).1.dbs) := by
  rw [refreshAll_ok]
  simp only [List.count_append]
  rw [count_adds_zero _ _ _ _ _ (by simp) (by simp),
    count_reclaim_zero _ _ _ (by simp) (by simp), count_goRefresh_map]
  simp only [List.count_cons, List.count_nil, beq_iff_eq, reduceCtorEq, if_false,
    Nat.add_zero, Nat.zero_add]
  exact List.Perm.count_eq (List.Perm.map _ (ro.perm _)) _

theorem refreshAll_count_close (ro : RangeOrder) (dbs : List GoString) (s : sequins)
    (db : DB) :
    List.count (Event.close db) (refreshAll ro (.ok dbs) s).2 =
      s.dbs.countP fun e =>
        decide (e.2 = db ∧ mapIndex (refreshAll ro (.ok dbs) s).1.dbs e.1 = none) := by
  rw [refreshAll_ok]
  simp only [List.count_append]
  rw [count_adds_zero _ _ _ _ _ (by simp) (by simp), count_refreshes_zero _ _ (by simp),
    count_close_reclaim]
  simp only [List.count_cons, List.count_nil, beq_iff_eq, reduceCtorEq, if_false,
    Nat.add_zero, Nat.zero_add]
  exact List.Perm.countP_eq _ (ro.perm _)

theorem refreshAll_count_delete (ro : RangeOrder) (dbs : List GoString) (s : sequins)
    (db : DB) :
    List.count (Event.delete db) (refreshAll ro (.ok dbs) s).2 =
      s.dbs.countP fun e =>
        decide (e.2 = db ∧ mapIndex (refreshAll ro (.ok dbs) s).1.dbs e.1 = none) := by
  rw [refreshAll_ok]
  simp only [List.count_append]
  rw [count_adds_zero _ _ _ _ _ (by simp) (by simp), count_refreshes_zero _ _ (by simp),
    count_delete_reclaim]
  simp only [List.count_cons, List.count_nil, beq_iff_eq, reduceCtorEq, if_false,
    Nat.add_zero, Nat.zero_add]
  exact List.Perm.countP_eq _ (ro.perm _)

theorem refreshAll_count_swap (ro : RangeOrder) (dbs : List GoString) (s : sequins)
    (m : DBMap) :
    List.count (Event.swap m) (refreshAll ro (.ok dbs) s).2 =
      if m = (refreshAll ro (.ok dbs) s).1.dbs then 1 else 0 := by
  rw [refreshAll_ok]
  simp only [List.count_append]
  rw [count_adds_zero _ _ _ _ _ (by simp) (by simp), count_refreshes_zero _ _ (by simp),
    count_reclaim_zero _ _ _ (by simp) (by simp)]
  simp only [List.count_cons, List.count_nil, beq_iff_eq, reduceCtorEq, if_false,
    Nat.add_zero, Nat.zero_add, Event.swap.injEq]
  by_cases h : m = (addDBs s.dbs dbs [] s.allocated).1
  · simp [h]
  · have h2 : ¬ (addDBs s.dbs dbs [] s.allocated).1 = m := fun e => h e.symm
    simp [h, h2]

theorem refreshAll_newDB_mem (ro : RangeOrder) (dbs : List GoString) (s : sequins)
    (name : GoString) (db : DB) :
    Event.newDB name db ∈ (refreshAll ro (.ok dbs) s).2 ↔
      Event.newDB name db ∈ (addDBs s.dbs dbs [] s.allocated).2.2 := by
  rw [refreshAll_ok]
  simp only [List.mem_append, List.mem_map, List.mem_singleton, reduceCtorEq, or_false,
    and_false, exists_false]
  constructor
  · rintro (h | h)
    · exact h
    · obtain ⟨_, _, _, _, h1 | h1⟩ := mem_reclaim _ _ _ h <;> cases h1
  · exact Or.inl

theorem refreshAll_mem_keys (ro : RangeOrder) (dbs : List GoString) (s : sequins)
    (name : GoString) : name ∈ mapKeys (refreshAll ro (.ok dbs) s).1.dbs ↔ name ∈ dbs := by
  rw [refreshAll_ok]
  simp only [addDBs_mem_keys]
  simp [mapKeys]

theorem refreshAll_nodup_keys (ro : RangeOrder) (dbs : List GoString) (s : sequins) :
    (mapKeys (refreshAll ro (.ok dbs) s).1.dbs).Nodup := by
  rw [refreshAll_ok]
  exact addDBs_nodup_keys _ _ _ _ (by simp [mapKeys])

theorem refreshAll_reuse (ro : RangeOrder) (dbs : List GoString) (s : sequins)
    (name : GoString) (db : DB) (h : name ∈ dbs) (hold : mapIndex s.dbs name = some db) :
    mapIndex (refreshAll ro (.ok dbs) s).1.dbs name = some db := by
  rw [refreshAll_ok]
  exact addDBs_mapIndex_reuse _ _ _ _ _ _ h hold

theorem refreshAll_new (ro : RangeOrder) (dbs : List GoString) (s : sequins)
    (name : GoString) (h : name ∈ dbs) (hold : mapIndex s.dbs name = none) :
    ∃ db, mapIndex (refreshAll ro (.ok dbs) s).1.dbs name = some db ∧
      Event.newDB name db ∈ (refreshAll ro (.ok dbs) s).2 := by
  obtain ⟨db, h1, h2⟩ := addDBs_mapIndex_new s.dbs dbs [] s.allocated name h hold
  exact ⟨db, by rw [refreshAll_ok]; exact h1, (refreshAll_newDB_mem _ _ _ _ _).mpr h2⟩

theorem refreshAll_provenance (ro : RangeOrder) (dbs : List GoString) (s : sequins)
    (name : GoString) (db : DB)
    (h : mapIndex (refreshAll ro (.ok dbs) s).1.dbs name = some db) :
    name ∈ dbs ∧ (mapIndex s.dbs name = some db ∨
      (mapIndex s.dbs name = none ∧ Event.newDB name db ∈ (refreshAll ro (.ok dbs) s).2)) := by
  rw [refreshAll_ok] at h
  obtain ⟨h1, h2⟩ := addDBs_provenance _ _ _ _ _ h
  refine ⟨h1, ?_⟩
  rcases h2 with h2 | ⟨h2, h3⟩
  · exact Or.inl h2
  · exact Or.inr ⟨h2, (refreshAll_newDB_mem _ _ _ _ _).mpr h3⟩

/-- A unit constructed in a cycle carries an allocation number the allocator
had not reached before the cycle, and was constructed for a listed name
that the registry did not hold. -/
theorem refreshAll_newDB_fresh (ro : RangeOrder) (dbs : List GoString) (s : sequins)
    (name : GoString) (db : DB) (h : Event.newDB name db ∈ (refreshAll ro (.ok dbs) s).2) :
    name ∈ dbs ∧ mapIndex s.dbs name = none ∧ s.allocated ≤ db ∧
      db < (refreshAll ro (.ok dbs) s).1.allocated := by
  have := addDBs_newDB_mem _ _ _ _ _ _ ((refreshAll_newDB_mem _ _ _ _ _).mp h)
  rw [refreshAll_ok]
  exact this

theorem refreshAll_allocated_le (ro : RangeOrder) (l : Except Err (List GoString))
    (s : sequins) : s.allocated ≤ (refreshAll ro l s).1.allocated := by
  cases l with
  | error err => exact le_refl _
  | ok dbs =>
    rw [refreshAll_ok]
    exact addDBs_allocated_le _ _ _ _

/-- A cycle keeps the registry well formed. -/
theorem refreshAll_WF (ro : RangeOrder) (l : Except Err (List GoString)) (s : sequins)
    (hwf : s.WF) : (refreshAll ro l s).1.WF := by
  cases l with
  | error err => exact hwf
  | ok dbs =>
    obtain ⟨_, hv, hf⟩ := hwf
    have hk := refreshAll_nodup_keys ro dbs s
    have hfresh : ∀ db ∈ mapValues (refreshAll ro (.ok dbs) s).1.dbs,
        db < (refreshAll ro (.ok dbs) s).1.allocated := by
      intro db hdb
      obtain ⟨x, hx⟩ := (mem_mapValues_iff _ _).mp hdb
      have hidx := mapIndex_of_mem hk hx
      rcases (refreshAll_provenance ro dbs s x db hidx).2 with h | ⟨_, h⟩
      · exact lt_of_lt_of_le (hf db (mem_mapValues_of_mapIndex h))
          (refreshAll_allocated_le ro (.ok dbs) s)
      · exact (refreshAll_newDB_fresh ro dbs s x db h).2.2.2
    refine ⟨hk, ?_, hfresh⟩
    apply nodup_mapValues_of_injective _ hk
    intro x y v hx hy
    rcases (refreshAll_provenance ro dbs s x v hx).2 with h1 | ⟨_, h1⟩
    · rcases (refreshAll_provenance ro dbs s y v hy).2 with h2 | ⟨_, h2⟩
      · exact injective_of_nodup_mapValues _ hv x y v h1 h2
      · have a := hf v (mem_mapValues_of_mapIndex h1)
        have b := (refreshAll_newDB_fresh ro dbs s y v h2).2.2.1
        exact absurd a (not_lt.mpr b)
    · rcases (refreshAll_provenance ro dbs s y v hy).2 with h2 | ⟨_, h2⟩
      · have a := hf v (mem_mapValues_of_mapIndex h2)
        have b := (refreshAll_newDB_fresh ro dbs s x v h1).2.2.1
        exact absurd a (not_lt.mpr b)
      · exact addDBs_newDB_unique _ _ _ _ _ _ _
          ((refreshAll_newDB_mem _ _ _ _ _).mp h1) ((refreshAll_newDB_mem _ _ _ _ _).mp h2)

theorem newSequins_WF : newSequins.WF := by decide

/-- The example registry is the one a first cycle listing `a`, `c` builds
from the state of `newSequins`. -/
theorem exampleSequins_reachable :
    (refreshAll RangeOrder.insertion (.ok ["a".toList, "c".toList]) newSequins).1 =
      exampleSequins := by
  decide

/-! ## The permit pool -/

theorem fillWorkers_ok (n cap len : Nat) (h : len + n ≤ cap) :
    fillWorkers n ⟨cap, len⟩ = some ⟨cap, len + n⟩ := by
  induction n generalizing len with
  | zero => rfl
  | succ n ih =>
    have hlt : len < cap := by omega
    simp only [fillWorkers, Chan.send, hlt, if_true]
    rw [ih (len + 1) (by omega)]
    congr 2
    omega

theorem refreshAll_refreshWorkers (ro : RangeOrder) (l : Except Err (List GoString))
    (s : sequins) : (refreshAll ro l s).1.refreshWorkers = s.refreshWorkers := by
  cases l with
  | error err => rfl
  | ok dbs => rw [refreshAll_ok]

/-- With the cluster and the local store up and a positive maximum `K` that
the runtime accepts as a buffer size, `init` runs its first cycle on a pool
of capacity `K` holding `K` permits. -/
theorem init_pos (K : Nat) (env : InitEnv) (s : sequins) (hK : 0 < K)
    (hc : env.zkServers = true → env.initCluster = none) (hl : env.initLocalStore = none)
    (hmax : env.MaxParallelLoads.val = (K : Int)) (hlim : K ≤ env.chanLimit) :
    init env s = .ok (refreshAll env.ro env.ListDBs { s with refreshWorkers := some ⟨K, K⟩ }) := by
  have hne : (K : Int) ≠ 0 := by omega
  have hnn : ¬ ((K : Int) < 0 ∨ (env.chanLimit : Int) < (K : Int)) := by omega
  have hcl : (if env.zkServers then env.initCluster else none) = none := by
    cases hz : env.zkServers with
    | true => simpa using hc hz
    | false => rfl
  simp only [init, hcl, hl, hmax, hne, ne_eq, not_false_eq_true, if_true, makeChan, hnn,
    if_false, Int.toNat_ofNat]
  rw [fillWorkers_ok K K 0 (by omega)]
  simp

/-- With the cluster and the local store up and a maximum larger than the
runtime accepts as a buffer size, `init` panics in `make`. -/
theorem init_too_large (K : Nat) (env : InitEnv) (s : sequins)
    (hc : env.zkServers = true → env.initCluster = none) (hl : env.initLocalStore = none)
    (hmax : env.MaxParallelLoads.val = (K : Int)) (hlim : env.chanLimit < K) :
    init env s = .error (InitFailure.panicked "makechan: size out of range") := by
  have hne : (K : Int) ≠ 0 := by omega
  have hnn : ((K : Int) < 0 ∨ (env.chanLimit : Int) < (K : Int)) := by omega
  have hcl : (if env.zkServers then env.initCluster else none) = none := by
    cases hz : env.zkServers with
    | true => simpa using hc hz
    | false => rfl
  simp only [init, hcl, hl, hmax, hne, ne_eq, not_false_eq_true, if_true, makeChan, hnn]

/-- With the cluster and the local store up and a maximum of 0, `init`
runs its first cycle on the state it was given: it creates no pool. -/
theorem init_zero (env : InitEnv) (s : sequins)
    (hc : env.zkServers = true → env.initCluster = none) (hl : env.initLocalStore = none)
    (hmax : env.MaxParallelLoads.val = 0) :
    init env s = .ok (refreshAll env.ro env.ListDBs s) := by
  have hcl : (if env.zkServers then env.initCluster else none) = none := by
    cases hz : env.zkServers with
    | true => simpa using hc hz
    | false => rfl
  simp [init, hcl, hl, hmax]

/-- One uninterrupted invocation of `refresh` is the schedule that launches
it and lets it take its steps in a row. -/
theorem refresh_eq_run (s s1 : sequins) (db : DB) (err : Option Err) (log : List (DB × Err))
    (h : refresh s db err = some (s1, log)) :
    Loads.run [.go db, .acquire 0, .refreshReturns 0 err, .release 0] (Loads.start s) =
      ⟨s1, [(db, Phase.done)], log⟩ := by
  unfold refresh at h
  cases hw : s.refreshWorkers with
  | none =>
    rw [hw] at h
    simp only [Option.some.injEq, Prod.mk.injEq] at h
    obtain ⟨rfl, rfl⟩ := h
    simp [Loads.run, Loads.step, Loads.start, hw]
  | some ch =>
    rw [hw] at h
    simp only at h
    cases hr : ch.recv with
    | none => rw [hr] at h; cases h
    | some ch1 =>
      rw [hr] at h
      simp only at h
      cases hs : ch1.send with
      | none => rw [hs] at h; cases h
      | some ch2 =>
        rw [hs] at h
        simp only [Option.some.injEq, Prod.mk.injEq] at h
        obtain ⟨rfl, rfl⟩ := h
        simp [Loads.run, Loads.step, Loads.start, hw, hr, hs]

/-- An uninterrupted `refresh` on a pool with a permit available returns with
the pool as it found it, whatever `db.refresh()` returns. -/
theorem refresh_restores (s : sequins) (ch : Chan) (db : DB) (err : Option Err)
    (hw : s.refreshWorkers = some ch) (hlen : 0 < ch.len) (hcap : ch.len ≤ ch.cap) :
    refresh s db err = some (s, refreshLog db err) := by
  have h1 : ch.len - 1 < ch.cap := by omega
  have h2 : ch.len - 1 + 1 = ch.len := by omega
  rcases s with ⟨dbs, rw, al⟩
  simp only at hw
  subst hw
  simp [refresh, Chan.recv, Chan.send, hlen, h1, h2]

theorem countP_set_of_getElem? {α : Type} (p : α → Bool) (l : List α) (i : Nat) (x y : α)
    (h : l[i]? = some y) :
    List.countP p (l.set i x) + (if p y then 1 else 0) =
      List.countP p l + (if p x then 1 else 0) := by
  induction l generalizing i with
  | nil => simp at h
  | cons a l ih =>
    cases i with
    | zero =>
      simp only [List.getElem?_cons_zero, Option.some.injEq] at h
      subst h
      simp only [List.set_cons_zero, List.countP_cons]
      omega
    | succ i =>
      simp only [List.getElem?_cons_succ] at h
      have := ih i h
      simp only [List.set_cons_succ, List.countP_cons]
      omega

theorem mem_set_of_getElem? {α : Type} (l : List α) (i : Nat) (x c : α)
    (h : c ∈ l.set i x) : c = x ∨ c ∈ l := by
  rcases List.mem_or_eq_of_mem_set h with h1 | h1
  · exact Or.inr h1
  · exact Or.inl h1

theorem Loads.step_dbs (st st1 : Loads) (t : LoadStep) (h : st.step t = some st1) :
    st1.s.dbs = st.s.dbs ∧ st1.s.allocated = st.s.allocated := by
  cases t with
  | go db =>
    simp only [Loads.step, Option.some.injEq] at h
    subst h
    exact ⟨rfl, rfl⟩
  | acquire i =>
    simp only [Loads.step] at h
    split at h
    · split at h
      · simp only [Option.some.injEq] at h
        subst h
        exact ⟨rfl, rfl⟩
      · split at h
        · simp only [Option.some.injEq] at h
          subst h
          exact ⟨rfl, rfl⟩
        · cases h
    · cases h
  | refreshReturns i err =>
    simp only [Loads.step] at h
    split at h
    · simp only [Option.some.injEq] at h
      subst h
      exact ⟨rfl, rfl⟩
    · cases h
  | release i =>
    simp only [Loads.step] at h
    split at h
    · split at h
      · cases h
      · split at h
        · simp only [Option.some.injEq] at h
          subst h
          exact ⟨rfl, rfl⟩
        · cases h
    · cases h

/-- The refresh wrappers never touch the registry, whatever `db.refresh()`
returns. -/
theorem Loads.run_dbs (sched : List LoadStep) (st : Loads) :
    (Loads.run sched st).s.dbs = st.s.dbs := by
  induction sched generalizing st with
  | nil => rfl
  | cons t ts ih =>
    simp only [Loads.run]
    cases h : st.step t with
    | none => exact ih st
    | some st1 =>
      simp only
      rw [ih st1]
      exact (Loads.step_dbs st st1 t h).1

theorem Chan.recv_eq_some (ch ch1 : Chan) (h : ch.recv = some ch1) :
    0 < ch.len ∧ ch1 = ⟨ch.cap, ch.len - 1⟩ := by
  unfold Chan.recv at h
  split at h
  · simp only [Option.some.injEq] at h
    exact ⟨by assumption, h.symm⟩
  · cases h

theorem Chan.send_eq_some (ch ch1 : Chan) (h : ch.send = some ch1) :
    ch.len < ch.cap ∧ ch1 = ⟨ch.cap, ch.len + 1⟩ := by
  unfold Chan.send at h
  split at h
  · simp only [Option.some.injEq] at h
    exact ⟨by assumption, h.symm⟩
  · cases h

theorem Loads.held_set (st : Loads) (i : Nat) (x y : DB × Phase)
    (h : st.calls[i]? = some y) :
    (List.countP (fun c => decide (c.2 = Phase.loading true ∨ c.2 = Phase.releasing))
        (st.calls.set i x)) +
      (if y.2 = Phase.loading true ∨ y.2 = Phase.releasing then 1 else 0) =
    st.held + (if x.2 = Phase.loading true ∨ x.2 = Phase.releasing then 1 else 0) := by
  have := countP_set_of_getElem?
    (fun c : DB × Phase => decide (c.2 = Phase.loading true ∨ c.2 = Phase.releasing))
    st.calls i x y h
  simpa [Loads.held] using this

/-- Every step of the refresh wrappers keeps the pool balanced. -/
theorem Loads.step_balanced (K : Nat) (st st1 : Loads) (t : LoadStep)
    (hb : st.Balanced K) (h : st.step t = some st1) : st1.Balanced K := by
  obtain ⟨ch, hch, hcap, hsum, hno⟩ := hb
  cases t with
  | go db =>
    simp only [Loads.step, Option.some.injEq] at h
    subst h
    refine ⟨ch, hch, hcap, ?_, ?_⟩
    · simpa [Loads.held] using hsum
    · intro c hc
      rcases List.mem_append.mp hc with h1 | h1
      · exact hno c h1
      · simp only [List.mem_singleton] at h1
        subst h1
        simp
  | acquire i =>
    simp only [Loads.step] at h
    split at h
    · rename_i db hget
      rw [hch] at h
      simp only at h
      split at h
      · rename_i ch1 hrecv
        simp only [Option.some.injEq] at h
        subst h
        obtain ⟨hpos, rfl⟩ := Chan.recv_eq_some ch ch1 hrecv
        have hs := Loads.held_set st i (db, Phase.loading true) (db, Phase.start) hget
        simp only [reduceCtorEq, or_self, if_false, Nat.add_zero, true_or, if_true] at hs
        refine ⟨⟨ch.cap, ch.len - 1⟩, rfl, hcap, ?_, ?_⟩
        · simp only [Loads.held]
          rw [hs]
          omega
        · intro c hc
          rcases mem_set_of_getElem? _ _ _ _ hc with h1 | h1
          · subst h1
            simp
          · exact hno c h1
      · cases h
    · cases h
  | refreshReturns i err =>
    simp only [Loads.step] at h
    split at h
    · rename_i db permit hget
      simp only [Option.some.injEq] at h
      subst h
      have hp : permit = true := by
        cases permit with
        | true => rfl
        | false => exact absurd rfl (hno (db, Phase.loading false) (List.getElem?_mem hget))
      subst hp
      have hs := Loads.held_set st i (db, Phase.releasing) (db, Phase.loading true) hget
      simp only [true_or, or_true, if_true, Nat.add_right_cancel_iff] at hs
      refine ⟨ch, hch, hcap, ?_, ?_⟩
      · simp only [Loads.held, if_true]
        rw [hs]
        exact hsum
      · intro c hc
        rcases mem_set_of_getElem? _ _ _ _ hc with h1 | h1
        · subst h1
          simp
        · exact hno c h1
    · cases h
  | release i =>
    simp only [Loads.step] at h
    split at h
    · rename_i db hget
      rw [hch] at h
      simp only at h
      split at h
      · rename_i ch1 hsend
        simp only [Option.some.injEq] at h
        subst h
        obtain ⟨hlt, rfl⟩ := Chan.send_eq_some ch ch1 hsend
        have hs := Loads.held_set st i (db, Phase.done) (db, Phase.releasing) hget
        simp only [reduceCtorEq, or_self, if_false, Nat.add_zero, or_true, if_true] at hs
        refine ⟨⟨ch.cap, ch.len + 1⟩, rfl, hcap, ?_, ?_⟩
        · simp only [Loads.held]
          omega
        · intro c hc
          rcases mem_set_of_getElem? _ _ _ _ hc with h1 | h1
          · subst h1
            simp
          · exact hno c h1
      · cases h
    · cases h

theorem Loads.run_balanced (K : Nat) (sched : List LoadStep) (st : Loads)
    (hb : st.Balanced K) : (Loads.run sched st).Balanced K := by
  induction sched generalizing st with
  | nil => exact hb
  | cons t ts ih =>
    simp only [Loads.run]
    cases h : st.step t with
    | none => exact ih st hb
    | some st1 => exact ih st1 (Loads.step_balanced K st st1 t hb h)

theorem Loads.inFlight_le_held (K : Nat) (st : Loads) (hb : st.Balanced K) :
    st.inFlight ≤ st.held := by
  obtain ⟨_, _, _, _, hno⟩ := hb
  apply List.countP_mono_left
  intro c hc hp
  simp only [decide_eq_true_eq] at hp ⊢
  rcases hp with h | h
  · exact Or.inl h
  · exact absurd h (hno c hc)

theorem Loads.available_add_held (K : Nat) (st : Loads) (hb : st.Balanced K) :
    st.available + st.held = K := by
  obtain ⟨ch, hch, _, hsum, _⟩ := hb
  simp only [Loads.available, hch]
  exact hsum

theorem Loads.held_eq_zero_of_allDone (st : Loads) (h : st.allDone) : st.held = 0 := by
  simp only [Loads.held, List.countP_eq_zero]
  intro c hc
  simp [h c hc]

theorem Loads.held_pos_of_releasing (st : Loads) (i : Nat) (db : DB)
    (h : st.calls[i]? = some (db, Phase.releasing)) : 0 < st.held := by
  simp only [Loads.held]
  exact List.countP_pos_iff.mpr ⟨(db, Phase.releasing), List.getElem?_mem h, by simp⟩

/-- With a balanced pool the deferred release never blocks. -/
theorem Loads.release_enabled (K : Nat) (st : Loads) (hb : st.Balanced K) (i : Nat) (db : DB)
    (h : st.calls[i]? = some (db, Phase.releasing)) : (st.step (.release i)).isSome = true := by
  have hpos := Loads.held_pos_of_releasing st i db h
  obtain ⟨ch, hch, hcap, hsum, _⟩ := hb
  have hlt : ch.len < ch.cap := by omega
  simp [Loads.step, h, hch, Chan.send, hlt]

/-- An invocation waits for a permit only while none is available. -/
theorem Loads.acquire_enabled (K : Nat) (st : Loads) (hb : st.Balanced K) (i : Nat) (db : DB)
    (h : st.calls[i]? = some (db, Phase.start)) (hav : 0 < st.available) :
    (st.step (.acquire i)).isSome = true := by
  obtain ⟨ch, hch, _, _, _⟩ := hb
  simp only [Loads.available, hch] at hav
  simp [Loads.step, h, hch, Chan.recv, hav]

theorem Loads.step_nil (st st1 : Loads) (t : LoadStep) (hn : st.s.refreshWorkers = none)
    (h : st.step t = some st1) : st1.s.refreshWorkers = none := by
  cases t with
  | go db =>
    simp only [Loads.step, Option.some.injEq] at h
    subst h
    exact hn
  | acquire i =>
    simp only [Loads.step, hn] at h
    split at h
    · simp only [Option.some.injEq] at h
      subst h
      exact hn
    · cases h
  | refreshReturns i err =>
    simp only [Loads.step] at h
    split at h
    · simp only [Option.some.injEq] at h
      subst h
      exact hn
    · cases h
  | release i =>
    simp only [Loads.step, hn] at h
    split at h <;> cases h

theorem Loads.run_nil (sched : List LoadStep) (st : Loads) (hn : st.s.refreshWorkers = none) :
    (Loads.run sched st).s.refreshWorkers = none := by
  induction sched generalizing st with
  | nil => exact hn
  | cons t ts ih =>
    simp only [Loads.run]
    cases h : st.step t with
    | none => exact ih st hn
    | some st1 => exact ih st1 (Loads.step_nil st st1 t hn h)

/-- Without a pool an invocation goes straight to `db.refresh()`. -/
theorem Loads.acquire_enabled_nil (st : Loads) (hn : st.s.refreshWorkers = none) (i : Nat)
    (db : DB) (h : st.calls[i]? = some (db, Phase.start)) :
    (st.step (.acquire i)).isSome = true := by
  simp [Loads.step, h, hn]

theorem Loads.balanced_start (K : Nat) (s : sequins) (h : s.refreshWorkers = some ⟨K, K⟩) :
    (Loads.start s).Balanced K :=
  ⟨⟨K, K⟩, h, rfl, by simp [Loads.held, Loads.start], by simp [Loads.start]⟩

/-! ## The backfill barrier -/

theorem snoc_eq_append_cons {α : Type} (l pre post : List α) (x m : α)
    (h : l ++ [x] = pre ++ m :: post) :
    (post = [] ∧ l = pre ∧ x = m) ∨ ∃ post1, post = post1 ++ [x] ∧ l = pre ++ m :: post1 := by
  rcases List.eq_nil_or_concat post with hp | ⟨post1, y, hp⟩
  · subst hp
    have := List.append_inj' h rfl
    simp only [List.cons.injEq, and_true] at this
    exact Or.inl ⟨rfl, this.1, this.2⟩
  · subst hp
    have h2 : l ++ [x] = (pre ++ m :: post1) ++ [y] := by simpa using h
    have := List.append_inj' h2 rfl
    simp only [List.cons.injEq, and_true] at this
    exact Or.inr ⟨post1, by rw [this.2, List.concat_eq_append], this.1⟩

theorem shape_wait_head (adds rest performed todo : List Event)
    (hP : performed ++ Event.backfillsWait :: todo = adds ++ Event.backfillsWait :: rest)
    (hadds : ∀ e ∈ adds, e ≠ Event.backfillsWait ∧ ∀ v, e ≠ Event.goRefresh v) :
    ∀ e ∈ adds, e ∈ performed := by
  rcases List.append_eq_append_iff.mp hP with ⟨a, h1, h2⟩ | ⟨c, h1, h2⟩
  · cases a with
    | nil =>
      simp only [List.append_nil] at h1
      intro e he
      rw [← h1]
      exact he
    | cons x a =>
      simp only [List.cons_append, List.cons.injEq] at h2
      have : Event.backfillsWait ∈ adds := by
        rw [h1, ← h2.1]
        simp
      exact absurd rfl (hadds _ this).1
  · intro e he
    rw [h1]
    exact List.mem_append_left _ he

theorem shape_refresh_head (adds rest performed todo : List Event) (v : DB)
    (hP : performed ++ Event.goRefresh v :: todo = adds ++ Event.backfillsWait :: rest)
    (hadds : ∀ e ∈ adds, e ≠ Event.backfillsWait ∧ ∀ v, e ≠ Event.goRefresh v) :
    Event.backfillsWait ∈ performed := by
  rcases List.append_eq_append_iff.mp hP with ⟨a, h1, h2⟩ | ⟨c, h1, h2⟩
  · cases a with
    | nil => simp at h2
    | cons x a =>
      simp only [List.cons_append, List.cons.injEq] at h2
      have : Event.goRefresh v ∈ adds := by
        rw [h1, ← h2.1]
        simp
      exact absurd rfl ((hadds _ this).2 v)
  · cases c with
    | nil => simp at h2
    | cons x c =>
      simp only [List.cons_append, List.cons.injEq] at h2
      rw [h1, ← h2.1]
      simp

theorem Barriered.goBackfill_performed {program : List Event} (hb : Barriered program)
    (performed todo : List Event)
    (hP : performed ++ Event.backfillsWait :: todo = program) (db : DB)
    (h : Event.goBackfill db ∈ program) : Event.goBackfill db ∈ performed := by
  obtain ⟨adds, rest, hprog, hrest, hadds⟩ := hb
  have hin : Event.goBackfill db ∈ adds := by
    rw [hprog] at h
    simp only [List.mem_append, List.mem_cons, reduceCtorEq, false_or] at h
    rcases h with h | h
    · exact h
    · exact absurd h (hrest db)
  exact shape_wait_head adds rest performed todo (hP.trans hprog) hadds _ hin

theorem Barriered.wait_performed {program : List Event} (hb : Barriered program)
    (performed todo : List Event) (v : DB)
    (hP : performed ++ Event.goRefresh v :: todo = program) :
    Event.backfillsWait ∈ performed := by
  obtain ⟨adds, rest, hprog, _, hadds⟩ := hb
  exact shape_refresh_head adds rest performed todo v (hP.trans hprog) hadds

theorem refreshAll_barriered (ro : RangeOrder) (dbs : List GoString) (s : sequins) :
    Barriered (refreshAll ro (.ok dbs) s).2 := by
  refine ⟨(addDBs s.dbs dbs [] s.allocated).2.2,
    (ro.order (addDBs s.dbs dbs [] s.allocated).1).map (fun e => Event.goRefresh e.2)
      ++ [Event.swap (addDBs s.dbs dbs [] s.allocated).1]
      ++ reclaim (addDBs s.dbs dbs [] s.allocated).1 (ro.order s.dbs), ?_, ?_, ?_⟩
  · rw [refreshAll_ok]
    simp
  · intro db hmem
    simp only [List.mem_append, List.mem_map, List.mem_singleton, reduceCtorEq, and_false,
      exists_false, or_false, false_or] at hmem
    obtain ⟨_, _, _, _, h | h⟩ := mem_reclaim _ _ _ hmem <;> cases h
  · intro e he
    rcases addDBs_events_shape _ _ _ _ _ he with ⟨name, db, h⟩ | ⟨db, h⟩ <;> subst h <;> simp

theorem Cycle.inv_start (program : List Event) : Cycle.Inv program (Cycle.start program) where
  prog := rfl
  counter := rfl
  launch := fun _ => rfl
  ran := fun _ => rfl
  waited := fun h => by simp [Cycle.start] at h
  barrier := fun pre v post h => by simp [Cycle.start] at h

theorem barrier_snoc (program : List Event) (trace : List Obs) (x : Obs)
    (hold : ∀ pre v post, trace = pre ++ Obs.main (Event.goRefresh v) :: post →
      ∀ db, Event.goBackfill db ∈ program → Obs.backfillVersions db ∈ pre)
    (hx : ∀ v, x = Obs.main (Event.goRefresh v) →
      ∀ db, Event.goBackfill db ∈ program → Obs.backfillVersions db ∈ trace) :
    ∀ pre v post, trace ++ [x] = pre ++ Obs.main (Event.goRefresh v) :: post →
      ∀ db, Event.goBackfill db ∈ program → Obs.backfillVersions db ∈ pre := by
  intro pre v post h db hdb
  rcases snoc_eq_append_cons _ _ _ _ _ h with ⟨_, h2, h3⟩ | ⟨post1, _, h2⟩
  · rw [← h2]
    exact hx v h3 db hdb
  · exact hold pre v post1 h2 db hdb

/-- The goroutine running `refreshAll` takes a step. -/
theorem Cycle.step_main_inv (program : List Event) (hb : Barriered program) (c c1 : Cycle)
    (hinv : Cycle.Inv program c) (h : c.step Turn.main = some c1) : Cycle.Inv program c1 := by
  obtain ⟨hprog, hcounter, hlaunch, hran, hwaited, hbarrier⟩ := hinv
  simp only [Cycle.step] at h
  split at h
  · cases h
  · rename_i rest htodo
    split at h
    · rename_i hzero
      simp only [Option.some.injEq] at h
      subst h
      rw [htodo] at hprog
      have hall : ∀ db, Event.goBackfill db ∈ program → Obs.backfillVersions db ∈ c.trace := by
        intro db hdb
        have hperf := Barriered.goBackfill_performed hb c.performed rest hprog db hdb
        have h1 : 0 < List.count (Event.goBackfill db) c.performed :=
          List.count_pos_iff.mpr hperf
        rw [← hlaunch db] at h1
        obtain ⟨g, hg, hgdb⟩ := List.countP_pos_iff.mp h1
        simp only [decide_eq_true_eq] at hgdb
        have hdone : g.2 = BackfillPhase.done := by
          by_contra hne
          have : 0 < c.goroutines.countP fun g => decide (g.2 ≠ BackfillPhase.done) :=
            List.countP_pos_iff.mpr ⟨g, hg, by simpa using hne⟩
          omega
        have h2 : 0 < c.goroutines.countP
            fun g => decide (g.1 = db ∧ g.2 ≠ BackfillPhase.launched) :=
          List.countP_pos_iff.mpr ⟨g, hg, by simp [hgdb, hdone]⟩
        rw [← hran db] at h2
        exact List.count_pos_iff.mp h2
      refine ⟨by simpa using hprog, hcounter, ?_, ?_, ?_, ?_⟩
      · intro db
        simp [hlaunch db, List.count_append]
      · intro db
        rw [List.count_append, hran db, List.count_eq_zero_of_not_mem (by simp), Nat.add_zero]
      · intro _ db hdb
        exact List.mem_append_left _ (hall db hdb)
      · exact barrier_snoc program c.trace _ hbarrier (by simp)
    · cases h
  · rename_i db0 rest htodo
    simp only [Option.some.injEq] at h
    subst h
    rw [htodo] at hprog
    refine ⟨by simpa using hprog, ?_, ?_, ?_, ?_, ?_⟩
    · simp [hcounter, List.countP_append]
    · intro db
      simp only [List.countP_append, hlaunch db, List.count_append, List.countP_cons,
        List.countP_nil, List.count_cons, List.count_nil, beq_iff_eq, Event.goBackfill.injEq,
        decide_eq_true_eq, Nat.zero_add]
    · intro db
      rw [List.count_append, hran db, List.count_eq_zero_of_not_mem (by simp), Nat.add_zero,
        List.countP_append]
      simp
    · intro hw db hdb
      simp only [List.mem_append, List.mem_singleton, reduceCtorEq, or_false] at hw
      exact List.mem_append_left _ (hwaited hw db hdb)
    · exact barrier_snoc program c.trace _ hbarrier (by simp)
  · rename_i e rest hnw hnb htodo
    simp only [Option.some.injEq] at h
    subst h
    rw [htodo] at hprog
    have hew : e ≠ Event.backfillsWait := hnw
    have heb : ∀ db, e ≠ Event.goBackfill db := hnb
    refine ⟨by simpa using hprog, hcounter, ?_, ?_, ?_, ?_⟩
    · intro db
      have : ¬ (e = Event.goBackfill db) := heb db
      simp [hlaunch db, List.count_append, List.count_cons, this]
    · intro db
      rw [List.count_append, hran db, List.count_eq_zero_of_not_mem (by simp), Nat.add_zero]
    · intro hw db hdb
      simp only [List.mem_append, List.mem_singleton] at hw
      rcases hw with hw | hw
      · exact List.mem_append_left _ (hwaited hw db hdb)
      · exact absurd hw.symm hew
    · apply barrier_snoc program c.trace _ hbarrier
      intro v hv db hdb
      simp only [Obs.main.injEq] at hv
      subst hv
      exact hwaited (Barriered.wait_performed hb c.performed rest v hprog) db hdb

/-- A backfill goroutine takes a step. -/
theorem Cycle.step_backfill_inv (program : List Event) (c c1 : Cycle) (i : Nat)
    (hinv : Cycle.Inv program c) (h : c.step (Turn.backfill i) = some c1) :
    Cycle.Inv program c1 := by
  obtain ⟨hprog, hcounter, hlaunch, hran, hwaited, hbarrier⟩ := hinv
  simp only [Cycle.step] at h
  split at h
  · rename_i db0 hget
    simp only [Option.some.injEq] at h
    subst h
    have k1 := countP_set_of_getElem? (fun g : DB × BackfillPhase =>
      decide (g.2 ≠ BackfillPhase.done)) c.goroutines i (db0, BackfillPhase.backfilled)
      (db0, BackfillPhase.launched) hget
    have k2 : ∀ db : DB, _ := fun db => countP_set_of_getElem? (fun g : DB × BackfillPhase =>
      decide (g.1 = db)) c.goroutines i (db0, BackfillPhase.backfilled)
      (db0, BackfillPhase.launched) hget
    have k3 : ∀ db : DB, _ := fun db => countP_set_of_getElem? (fun g : DB × BackfillPhase =>
      decide (g.1 = db ∧ g.2 ≠ BackfillPhase.launched)) c.goroutines i
      (db0, BackfillPhase.backfilled) (db0, BackfillPhase.launched) hget
    refine ⟨hprog, ?_, ?_, ?_, ?_, ?_⟩
    · simp only [ne_eq, reduceCtorEq, not_false_eq_true, decide_True, if_true,
        Nat.add_right_cancel_iff] at k1
      simp only [hcounter, k1]
    · intro db
      have := k2 db
      simp only [Nat.add_right_cancel_iff] at this
      simp only [this, hlaunch db]
    · intro db
      have := k3 db
      simp only [ne_eq, not_true_eq_false, and_false, decide_False, Bool.false_eq_true,
        if_false, Nat.add_zero, reduceCtorEq, not_false_eq_true, and_true,
        decide_eq_true_eq] at this
      rw [List.count_append, hran db, this]
      simp only [List.count_cons, List.count_nil, beq_iff_eq, Obs.backfillVersions.injEq,
        Nat.zero_add]
    · intro hw db hdb
      exact List.mem_append_left _ (hwaited hw db hdb)
    · exact barrier_snoc program c.trace _ hbarrier (by simp)
  · rename_i db0 hget
    simp only [Option.some.injEq] at h
    subst h
    have k1 := countP_set_of_getElem? (fun g : DB × BackfillPhase =>
      decide (g.2 ≠ BackfillPhase.done)) c.goroutines i (db0, BackfillPhase.done)
      (db0, BackfillPhase.backfilled) hget
    have k2 : ∀ db : DB, _ := fun db => countP_set_of_getElem? (fun g : DB × BackfillPhase =>
      decide (g.1 = db)) c.goroutines i (db0, BackfillPhase.done)
      (db0, BackfillPhase.backfilled) hget
    have k3 : ∀ db : DB, _ := fun db => countP_set_of_getElem? (fun g : DB × BackfillPhase =>
      decide (g.1 = db ∧ g.2 ≠ BackfillPhase.launched)) c.goroutines i
      (db0, BackfillPhase.done) (db0, BackfillPhase.backfilled) hget
    refine ⟨hprog, ?_, ?_, ?_, ?_, ?_⟩
    · simp only [ne_eq, reduceCtorEq, not_false_eq_true, decide_True, if_true,
        not_true_eq_false, decide_False, Bool.false_eq_true, if_false, Nat.add_zero] at k1
      simp only [ne_eq] at hcounter ⊢
      rw [hcounter]
      omega
    · intro db
      have := k2 db
      simp only [Nat.add_right_cancel_iff] at this
      simp only [this, hlaunch db]
    · intro db
      have := k3 db
      simp only [ne_eq, reduceCtorEq, not_false_eq_true, and_true, Nat.add_right_cancel_iff]
        at this
      rw [List.count_append, hran db, this, List.count_eq_zero_of_not_mem (by simp),
        Nat.add_zero]
    · intro hw db hdb
      exact List.mem_append_left _ (hwaited hw db hdb)
    · exact barrier_snoc program c.trace _ hbarrier (by simp)
  · cases h

theorem Cycle.step_inv (program : List Event) (hb : Barriered program) (c c1 : Cycle)
    (t : Turn) (hinv : Cycle.Inv program c) (h : c.step t = some c1) : Cycle.Inv program c1 := by
  cases t with
  | main => exact Cycle.step_main_inv program hb c c1 hinv h
  | backfill i => exact Cycle.step_backfill_inv program c c1 i hinv h

theorem Cycle.run_inv (program : List Event) (hb : Barriered program) (sched : List Turn)
    (c : Cycle) (hinv : Cycle.Inv program c) : Cycle.Inv program (Cycle.run sched c) := by
  induction sched generalizing c with
  | nil => exact hinv
  | cons t ts ih =>
    simp only [Cycle.run]
    cases h : c.step t with
    | none => exact ih c hinv
    | some c1 => exact ih c1 (Cycle.step_inv program hb c c1 t hinv h)

theorem Cycle.run_append (a b : List Turn) (c : Cycle) :
    Cycle.run (a ++ b) c = Cycle.run b (Cycle.run a c) := by
  induction a generalizing c with
  | nil => rfl
  | cons t ts ih =>
    simp only [List.cons_append, Cycle.run]
    cases c.step t with
    | none => exact ih c
    | some c1 => exact ih c1

/-! ## The cycle runs to completion -/

theorem sum_map_set_of_getElem? {α : Type} (f : α → Nat) (l : List α) (i : Nat) (x y : α)
    (h : l[i]? = some y) : ((l.set i x).map f).sum + f y = (l.map f).sum + f x := by
  induction l generalizing i with
  | nil => simp at h
  | cons a l ih =>
    cases i with
    | zero =>
      simp only [List.getElem?_cons_zero, Option.some.injEq] at h
      subst h
      simp only [List.set_cons_zero, List.map_cons, List.sum_cons]
      omega
    | succ i =>
      simp only [List.getElem?_cons_succ] at h
      have := ih i h
      simp only [List.set_cons_succ, List.map_cons, List.sum_cons]
      omega

/-- A backfill goroutine that has not returned can take a step. -/
theorem Cycle.backfill_step_of_not_done (c : Cycle) (g : DB × BackfillPhase)
    (hg : g ∈ c.goroutines) (hnd : g.2 ≠ BackfillPhase.done) :
    ∃ t c1, c.step t = some c1 ∧ c1.remaining + 1 = c.remaining := by
  obtain ⟨i, hi⟩ := List.mem_iff_getElem?.mp hg
  rcases g with ⟨db, ph⟩
  cases ph with
  | launched =>
    refine ⟨Turn.backfill i, _, by simp only [Cycle.step, hi]; rfl, ?_⟩
    have : ((c.goroutines.set i (db, BackfillPhase.backfilled)).map
        fun g : DB × BackfillPhase => g.2.remaining).sum + 2 =
        (c.goroutines.map fun g : DB × BackfillPhase => g.2.remaining).sum + 1 :=
      sum_map_set_of_getElem? (fun g : DB × BackfillPhase => g.2.remaining)
        c.goroutines i (db, BackfillPhase.backfilled) (db, BackfillPhase.launched) hi
    simp only [Cycle.remaining]
    omega
  | backfilled =>
    refine ⟨Turn.backfill i, _, by simp only [Cycle.step, hi]; rfl, ?_⟩
    have : ((c.goroutines.set i (db, BackfillPhase.done)).map
        fun g : DB × BackfillPhase => g.2.remaining).sum + 1 =
        (c.goroutines.map fun g : DB × BackfillPhase => g.2.remaining).sum + 0 :=
      sum_map_set_of_getElem? (fun g : DB × BackfillPhase => g.2.remaining)
        c.goroutines i (db, BackfillPhase.done) (db, BackfillPhase.backfilled) hi
    simp only [Cycle.remaining]
    omega
  | done => exact absurd rfl hnd

/-- No deadlock: a cycle that is not over can take a step, and the step
brings it closer to the end. -/
theorem Cycle.exists_step (program : List Event) (c : Cycle) (hinv : Cycle.Inv program c)
    (hnf : ¬ c.finished) : ∃ t c1, c.step t = some c1 ∧ c1.remaining + 1 = c.remaining := by
  cases htodo : c.todo with
  | nil =>
    have : ¬ ∀ g ∈ c.goroutines, g.2 = BackfillPhase.done := fun h => hnf ⟨htodo, h⟩
    push_neg at this
    obtain ⟨g, hg, hnd⟩ := this
    exact Cycle.backfill_step_of_not_done c g hg hnd
  | cons e rest =>
    by_cases hw : e = Event.backfillsWait
    · subst hw
      by_cases hz : c.backfills = 0
      · refine ⟨Turn.main, _, by simp only [Cycle.step, htodo, hz, if_true]; rfl, ?_⟩
        simp [Cycle.remaining, htodo, Event.remaining]
        omega
      · have hpos : 0 < c.goroutines.countP fun g => decide (g.2 ≠ BackfillPhase.done) := by
          rw [← hinv.counter]
          omega
        obtain ⟨g, hg, hnd⟩ := List.countP_pos_iff.mp hpos
        exact Cycle.backfill_step_of_not_done c g hg (by simpa using hnd)
    · cases e with
      | backfillsWait => exact absurd rfl hw
      | goBackfill db =>
        refine ⟨Turn.main, _, by simp only [Cycle.step, htodo]; rfl, ?_⟩
        simp [Cycle.remaining, htodo, Event.remaining, BackfillPhase.remaining]
        omega
      | listError err =>
        refine ⟨Turn.main, _, by simp only [Cycle.step, htodo]; rfl, ?_⟩
        simp [Cycle.remaining, htodo, Event.remaining]
        omega
      | newDB name db =>
        refine ⟨Turn.main, _, by simp only [Cycle.step, htodo]; rfl, ?_⟩
        simp [Cycle.remaining, htodo, Event.remaining]
        omega
      | goRefresh db =>
        refine ⟨Turn.main, _, by simp only [Cycle.step, htodo]; rfl, ?_⟩
        simp [Cycle.remaining, htodo, Event.remaining]
        omega
      | swap m =>
        refine ⟨Turn.main, _, by simp only [Cycle.step, htodo]; rfl, ?_⟩
        simp [Cycle.remaining, htodo, Event.remaining]
        omega
      | close db =>
        refine ⟨Turn.main, _, by simp only [Cycle.step, htodo]; rfl, ?_⟩
        simp [Cycle.remaining, htodo, Event.remaining]
        omega
      | delete db =>
        refine ⟨Turn.main, _, by simp only [Cycle.step, htodo]; rfl, ?_⟩
        simp [Cycle.remaining, htodo, Event.remaining]
        omega

/-- From every moment of a cycle some schedule takes it to the end. -/
theorem Cycle.can_finish (program : List Event) (hb : Barriered program) (n : Nat) :
    ∀ c : Cycle, Cycle.Inv program c → c.remaining = n →
      ∃ sched, (Cycle.run sched c).finished := by
  induction n with
  | zero =>
    intro c hinv hn
    by_cases hf : c.finished
    · exact ⟨[], hf⟩
    · obtain ⟨t, c1, _, h2⟩ := Cycle.exists_step program c hinv hf
      omega
  | succ n ih =>
    intro c hinv hn
    by_cases hf : c.finished
    · exact ⟨[], hf⟩
    · obtain ⟨t, c1, h1, h2⟩ := Cycle.exists_step program c hinv hf
      obtain ⟨sched, hs⟩ := ih c1 (Cycle.step_inv program hb c c1 t hinv h1) (by omega)
      exact ⟨t :: sched, by simpa only [Cycle.run, h1] using hs⟩

/-- At the end of a cycle each unit has been backfilled as many times as a
backfill was launched for it. -/
theorem Cycle.count_backfillVersions_finished (program : List Event) (c : Cycle)
    (hinv : Cycle.Inv program c) (hf : c.finished) (db : DB) :
    List.count (Obs.backfillVersions db) c.trace = List.count (Event.goBackfill db) program := by
  have hperf : c.performed = program := by
    have := hinv.prog
    rwa [hf.1, List.append_nil] at this
  rw [hinv.ran db, ← hperf, ← hinv.launch db]
  apply List.countP_congr
  intro g hg
  simp [hf.2 g hg]

/-- At no moment has a unit been backfilled more often than a backfill was
launched for it. -/
theorem Cycle.count_backfillVersions_le (program : List Event) (c : Cycle)
    (hinv : Cycle.Inv program c) (db : DB) :
    List.count (Obs.backfillVersions db) c.trace ≤ List.count (Event.goBackfill db) program := by
  have h1 : List.count (Obs.backfillVersions db) c.trace ≤
      c.goroutines.countP fun g => decide (g.1 = db) := by
    rw [hinv.ran db]
    apply List.countP_mono_left
    intro g _ hp
    simp only [decide_eq_true_eq] at hp ⊢
    exact hp.1
  rw [hinv.launch db] at h1
  have h2 : List.count (Event.goBackfill db) c.performed ≤
      List.count (Event.goBackfill db) program := by
    rw [← hinv.prog, List.count_append]
    omega
  omega

/-! ## Reclamation -/

/-- A unit whose name left the registry in a cycle is closed once and
deleted once in that cycle, after the swap and in that order. -/
theorem refreshAll_reclaims (ro : RangeOrder) (dbs : List GoString) (s : sequins)
    (hv : (mapValues s.dbs).Nodup) (name : GoString) (u : DB)
    (hold : mapIndex s.dbs name = some u)
    (hnew : mapIndex (refreshAll ro (.ok dbs) s).1.dbs name = none) :
    List.count (Event.close u) (refreshAll ro (.ok dbs) s).2 = 1 ∧
    List.count (Event.delete u) (refreshAll ro (.ok dbs) s).2 = 1 ∧
    List.Sublist [Event.swap (refreshAll ro (.ok dbs) s).1.dbs, Event.close u, Event.delete u]
      (refreshAll ro (.ok dbs) s).2 := by
  have hmem := mem_of_mapIndex hold
  refine ⟨?_, ?_, ?_⟩
  · rw [refreshAll_count_close]
    exact countP_reclaimed_pos _ _ _ hv name hmem hnew
  · rw [refreshAll_count_delete]
    exact countP_reclaimed_pos _ _ _ hv name hmem hnew
  · rw [refreshAll_ok] at hnew ⊢
    simp only at hnew ⊢
    have hcd := close_delete_sublist_reclaim (addDBs s.dbs dbs [] s.allocated).1
      (ro.order s.dbs) name u ((ro.perm _).mem_iff.mpr hmem) hnew
    have h1 : List.Sublist
        ([Event.swap (addDBs s.dbs dbs [] s.allocated).1] ++ [Event.close u, Event.delete u])
        ([Event.swap (addDBs s.dbs dbs [] s.allocated).1] ++
          reclaim (addDBs s.dbs dbs [] s.allocated).1 (ro.order s.dbs)) :=
      List.Sublist.append (List.Sublist.refl _) hcd
    rw [List.append_assoc]
    exact h1.trans (List.sublist_append_right _ _)

/-- A unit that is closed or deleted in a cycle was in the registry under a
name that the cycle removed. -/
theorem refreshAll_close_or_delete_mem (ro : RangeOrder) (dbs : List GoString) (s : sequins)
    (u : DB)
    (h : Event.close u ∈ (refreshAll ro (.ok dbs) s).2 ∨
      Event.delete u ∈ (refreshAll ro (.ok dbs) s).2) :
    ∃ name, (name, u) ∈ s.dbs ∧ mapIndex (refreshAll ro (.ok dbs) s).1.dbs name = none := by
  have hpos : 0 < s.dbs.countP fun e =>
      decide (e.2 = u ∧ mapIndex (refreshAll ro (.ok dbs) s).1.dbs e.1 = none) := by
    rcases h with h | h
    · rw [← refreshAll_count_close]
      exact List.count_pos_iff.mpr h
    · rw [← refreshAll_count_delete]
      exact List.count_pos_iff.mpr h
  obtain ⟨⟨k, v⟩, hmem, hp⟩ := List.countP_pos_iff.mp hpos
  simp only [decide_eq_true_eq] at hp
  exact ⟨k, hp.1 ▸ hmem, hp.2⟩

/-- A unit that is neither in the registry nor ahead of the allocator is
left alone by a cycle, and stays out of the registry. -/
theorem refreshAll_untouched (ro : RangeOrder) (l : Except Err (List GoString)) (s : sequins)
    (u : DB) (h1 : u ∉ mapValues s.dbs) (h2 : u < s.allocated) :
    u ∉ mapValues (refreshAll ro l s).1.dbs ∧ u < (refreshAll ro l s).1.allocated ∧
    Event.close u ∉ (refreshAll ro l s).2 ∧ Event.delete u ∉ (refreshAll ro l s).2 ∧
    Event.goBackfill u ∉ (refreshAll ro l s).2 ∧ Event.goRefresh u ∉ (refreshAll ro l s).2 ∧
    ∀ n, Event.newDB n u ∉ (refreshAll ro l s).2 := by
  cases l with
  | error err =>
    rw [refreshAll_error]
    simp [h1, h2]
  | ok dbs =>
    have hnew : ∀ n, Event.newDB n u ∉ (refreshAll ro (.ok dbs) s).2 := by
      intro n hn
      have := (refreshAll_newDB_fresh ro dbs s n u hn).2.2.1
      exact absurd h2 (not_lt.mpr this)
    have hval : u ∉ mapValues (refreshAll ro (.ok dbs) s).1.dbs := by
      intro hmem
      obtain ⟨x, hx⟩ := (mem_mapValues_iff _ _).mp hmem
      have hidx := mapIndex_of_mem (refreshAll_nodup_keys ro dbs s) hx
      rcases (refreshAll_provenance ro dbs s x u hidx).2 with h | ⟨_, h⟩
      · exact h1 (mem_mapValues_of_mapIndex h)
      · exact hnew x h
    refine ⟨hval, lt_of_lt_of_le h2 (refreshAll_allocated_le ro (.ok dbs) s), ?_, ?_, ?_, ?_,
      hnew⟩
    · intro hc
      obtain ⟨name, hmem, _⟩ := refreshAll_close_or_delete_mem ro dbs s u (Or.inl hc)
      exact h1 ((mem_mapValues_iff _ _).mpr ⟨name, hmem⟩)
    · intro hc
      obtain ⟨name, hmem, _⟩ := refreshAll_close_or_delete_mem ro dbs s u (Or.inr hc)
      exact h1 ((mem_mapValues_iff _ _).mpr ⟨name, hmem⟩)
    · intro hc
      have hpos := List.count_pos_iff.mpr hc
      rw [refreshAll_count_goBackfill, addDBs_count_goBackfill] at hpos
      split_ifs at hpos with hcond
      · exact absurd h2 (not_lt.mpr hcond.1)
      · exact absurd hpos (lt_irrefl _)
    · intro hc
      have hpos := List.count_pos_iff.mpr hc
      rw [refreshAll_count_goRefresh] at hpos
      exact hval (List.count_pos_iff.mp hpos)

/-! ## Sequences of cycles -/

theorem refreshCycles_cons (ro : RangeOrder) (l : Except Err (List GoString))
    (rest : List (RangeOrder × Except Err (List GoString))) (s : sequins) :
    refreshCycles ((ro, l) :: rest) s =
      ((refreshCycles rest (refreshAll ro l s).1).1,
        (refreshAll ro l s).2 :: (refreshCycles rest (refreshAll ro l s).1).2) := rfl

theorem refreshCycles_append (a b : List (RangeOrder × Except Err (List GoString)))
    (s : sequins) :
    refreshCycles (a ++ b) s =
      ((refreshCycles b (refreshCycles a s).1).1,
        (refreshCycles a s).2 ++ (refreshCycles b (refreshCycles a s).1).2) := by
  induction a generalizing s with
  | nil => rfl
  | cons c a ih =>
    rcases c with ⟨ro, l⟩
    simp only [List.cons_append, refreshCycles_cons, ih, List.cons_append]

theorem refreshCycles_WF (cycles : List (RangeOrder × Except Err (List GoString)))
    (s : sequins) (hwf : s.WF) : (refreshCycles cycles s).1.WF := by
  induction cycles generalizing s with
  | nil => exact hwf
  | cons c cycles ih =>
    rcases c with ⟨ro, l⟩
    rw [refreshCycles_cons]
    exact ih _ (refreshAll_WF ro l s hwf)

/-- Every registry the cycles can build from the state of `newSequins` is
well formed, whatever the listings, the failures and the `range` orders. -/
theorem reachable_WF (cycles : List (RangeOrder × Except Err (List GoString))) :
    (refreshCycles cycles newSequins).1.WF :=
  refreshCycles_WF cycles newSequins newSequins_WF

theorem refreshCycles_untouched (cycles : List (RangeOrder × Except Err (List GoString)))
    (s : sequins) (u : DB) (h1 : u ∉ mapValues s.dbs) (h2 : u < s.allocated) :
    u ∉ mapValues (refreshCycles cycles s).1.dbs ∧
    ∀ evs ∈ (refreshCycles cycles s).2,
      Event.close u ∉ evs ∧ Event.delete u ∉ evs ∧ Event.goBackfill u ∉ evs ∧
      Event.goRefresh u ∉ evs ∧ ∀ n, Event.newDB n u ∉ evs := by
  induction cycles generalizing s with
  | nil => exact ⟨h1, by simp [refreshCycles]⟩
  | cons c cycles ih =>
    rcases c with ⟨ro, l⟩
    rw [refreshCycles_cons]
    obtain ⟨a1, a2, a3⟩ := refreshAll_untouched ro l s u h1 h2
    obtain ⟨b1, b2⟩ := ih (refreshAll ro l s).1 a1 a2
    refine ⟨b1, ?_⟩
    intro evs hevs
    rcases List.mem_cons.mp hevs with h | h
    · rw [h]
      exact a3
    · exact b2 evs h

/-- A unit in the registry after some cycles was there before them, under
the same name, or was constructed for that name by one of them. -/
theorem refreshCycles_provenance (cycles : List (RangeOrder × Except Err (List GoString)))
    (s : sequins) (name : GoString) (db : DB)
    (h : mapIndex (refreshCycles cycles s).1.dbs name = some db) :
    mapIndex s.dbs name = some db ∨
      ∃ evs ∈ (refreshCycles cycles s).2, Event.newDB name db ∈ evs := by
  induction cycles generalizing s with
  | nil => exact Or.inl h
  | cons c cycles ih =>
    rcases c with ⟨ro, l⟩
    rw [refreshCycles_cons] at h ⊢
    rcases ih (refreshAll ro l s).1 h with h1 | ⟨evs, h1, h2⟩
    · cases l with
      | error err => exact Or.inl h1
      | ok dbs =>
        rcases (refreshAll_provenance ro dbs s name db h1).2 with h3 | ⟨_, h3⟩
        · exact Or.inl h3
        · exact Or.inr ⟨_, List.mem_cons_self _ _, h3⟩
    · exact Or.inr ⟨evs, List.mem_cons_of_mem _ h1, h2⟩

/-- A name that is not registered stays so through cycles that do not list
it. -/
theorem refreshCycles_absent (cycles : List (RangeOrder × Except Err (List GoString)))
    (s : sequins) (name : GoString) (h : mapIndex s.dbs name = none)
    (hno : ∀ c ∈ cycles, ∀ l, c.2 = .ok l → name ∉ l) :
    mapIndex (refreshCycles cycles s).1.dbs name = none := by
  induction cycles generalizing s with
  | nil => exact h
  | cons c cycles ih =>
    rcases c with ⟨ro, l⟩
    rw [refreshCycles_cons]
    apply ih
    · cases l with
      | error err => exact h
      | ok dbs =>
        rw [mapIndex_eq_none_iff, refreshAll_mem_keys]
        exact hno (ro, .ok dbs) (List.mem_cons_self _ _) dbs rfl
    · intro c hc
      exact hno c (List.mem_cons_of_mem _ hc)

/-- A unit whose name a cycle drops is out of the registry after it. -/
theorem refreshAll_dropped (ro : RangeOrder) (dbs : List GoString) (s : sequins)
    (hwf : s.WF) (name : GoString) (u : DB) (hu : mapIndex s.dbs name = some u)
    (hG : name ∉ dbs) :
    mapIndex (refreshAll ro (.ok dbs) s).1.dbs name = none ∧
    u ∉ mapValues (refreshAll ro (.ok dbs) s).1.dbs ∧
    u < (refreshAll ro (.ok dbs) s).1.allocated := by
  obtain ⟨_, hv, hf⟩ := hwf
  have hlt : u < s.allocated := hf u (mem_mapValues_of_mapIndex hu)
  refine ⟨?_, ?_, lt_of_lt_of_le hlt (refreshAll_allocated_le ro (.ok dbs) s)⟩
  · rw [mapIndex_eq_none_iff, refreshAll_mem_keys]
    exact hG
  · intro hmem
    obtain ⟨x, hx⟩ := (mem_mapValues_iff _ _).mp hmem
    have hidx := mapIndex_of_mem (refreshAll_nodup_keys ro dbs s) hx
    obtain ⟨hxin, h | ⟨_, h⟩⟩ := refreshAll_provenance ro dbs s x u hidx
    · have := injective_of_nodup_mapValues _ hv x name u h hu
      exact hG (this ▸ hxin)
    · have := (refreshAll_newDB_fresh ro dbs s x u h).2.2.1
      exact absurd hlt (not_lt.mpr this)

/-! ## What the interleaved trace shows of `refreshAll` -/

theorem count_main_snoc (trace : List Obs) (performed : List Event) (e0 e : Event)
    (hm : List.count (Obs.main e) trace = List.count e performed) :
    List.count (Obs.main e) (trace ++ [Obs.main e0]) = List.count e (performed ++ [e0]) := by
  rw [List.count_append, List.count_append, hm]
  by_cases h : e0 = e
  · subst h
    simp
  · have h2 : ¬ Obs.main e0 = Obs.main e := fun h3 => h (Obs.main.inj h3)
    simp [List.count_cons, h, h2]

theorem Cycle.step_mains (c c1 : Cycle) (t : Turn) (h : c.step t = some c1)
    (hm : ∀ e, List.count (Obs.main e) c.trace = List.count e c.performed) :
    ∀ e, List.count (Obs.main e) c1.trace = List.count e c1.performed := by
  intro e
  cases t with
  | main =>
    simp only [Cycle.step] at h
    split at h
    · cases h
    · split at h
      · simp only [Option.some.injEq] at h
        subst h
        exact count_main_snoc _ _ _ _ (hm e)
      · cases h
    · simp only [Option.some.injEq] at h
      subst h
      exact count_main_snoc _ _ _ _ (hm e)
    · simp only [Option.some.injEq] at h
      subst h
      exact count_main_snoc _ _ _ _ (hm e)
  | backfill i =>
    simp only [Cycle.step] at h
    split at h
    · rename_i db hget
      simp only [Option.some.injEq] at h
      subst h
      have hz : List.count (Obs.main e) [Obs.backfillVersions db] = 0 := by simp
      simp only
      rw [List.count_append, hz, Nat.add_zero]
      exact hm e
    · rename_i db hget
      simp only [Option.some.injEq] at h
      subst h
      have hz : List.count (Obs.main e) [Obs.backfillsDone db] = 0 := by simp
      simp only
      rw [List.count_append, hz, Nat.add_zero]
      exact hm e
    · cases h

theorem Cycle.run_mains (sched : List Turn) (c : Cycle)
    (hm : ∀ e, List.count (Obs.main e) c.trace = List.count e c.performed) :
    ∀ e, List.count (Obs.main e) (Cycle.run sched c).trace =
      List.count e (Cycle.run sched c).performed := by
  induction sched generalizing c with
  | nil => exact hm
  | cons t ts ih =>
    simp only [Cycle.run]
    cases h : c.step t with
    | none => exact ih c hm
    | some c1 => exact ih c1 (Cycle.step_mains c c1 t h hm)

/-- At the end of a cycle the trace shows each event of `refreshAll` as
often as `refreshAll` performs it. -/
theorem Cycle.count_main_finished (program : List Event) (hb : Barriered program)
    (sched : List Turn) (hf : (Cycle.run sched (Cycle.start program)).finished) (e : Event) :
    List.count (Obs.main e) (Cycle.run sched (Cycle.start program)).trace =
      List.count e program := by
  have hinv := Cycle.run_inv program hb sched _ (Cycle.inv_start program)
  have hperf : (Cycle.run sched (Cycle.start program)).performed = program := by
    have := hinv.prog
    rwa [hf.1, List.append_nil] at this
  rw [Cycle.run_mains sched (Cycle.start program) (fun _ => rfl) e, hperf]

/-- The number of backfills a cycle launches for a unit: one if the cycle
constructed the unit, none otherwise. -/
theorem refreshAll_count_goBackfill_constructed (ro : RangeOrder) (dbs : List GoString)
    (s : sequins) (db : DB) :
    ((∃ name, Event.newDB name db ∈ (refreshAll ro (.ok dbs) s).2) →
      List.count (Event.goBackfill db) (refreshAll ro (.ok dbs) s).2 = 1) ∧
    ((¬ ∃ name, Event.newDB name db ∈ (refreshAll ro (.ok dbs) s).2) →
      List.count (Event.goBackfill db) (refreshAll ro (.ok dbs) s).2 = 0) := by
  rw [refreshAll_count_goBackfill, addDBs_count_goBackfill]
  constructor
  · rintro ⟨name, h⟩
    have := addDBs_newDB_mem _ _ _ _ _ _ ((refreshAll_newDB_mem _ _ _ _ _).mp h)
    rw [if_pos ⟨this.2.2.1, this.2.2.2⟩]
  · intro h
    split_ifs with hc
    · obtain ⟨name, hn⟩ := addDBs_exists_newDB s.dbs dbs [] s.allocated db hc.1 hc.2
      exact absurd ⟨name, (refreshAll_newDB_mem _ _ _ _ _).mpr hn⟩ h
    · rfl

/-! ## Claims: the router -/

/-- C4 (routing distinction for an unknown database): a GET whose path is
not "/" and whose database name is non-empty and not in the registry is
answered with 501 when `proxy` has a non-empty value and with 404 when it
has not, after one registry lookup and without any call of `serveKey`; a
`proxy` parameter that is absent, or whose first value is empty, is no
marker. -/
theorem ServeHTTP_unknown_db (dbs : DBMap) (r : Request)
    (hm : r.Method = "GET".toList) (hp : r.Path ≠ "/".toList)
    (hn : (parsePath r.Path).1 ≠ []) (hdb : mapIndex dbs (parsePath r.Path).1 = none) :
    (r.Query.Get "proxy".toList ≠ [] →
      ServeHTTP dbs r =
        [HTTPEffect.dbsLookup (parsePath r.Path).1, HTTPEffect.WriteHeader 501]) ∧
    (r.Query.Get "proxy".toList = [] →
      ServeHTTP dbs r =
        [HTTPEffect.dbsLookup (parsePath r.Path).1, HTTPEffect.WriteHeader 404]) ∧
    (∀ db key, HTTPEffect.serveKey db key ∉ ServeHTTP dbs r) ∧
    (r.Query.lookup "proxy".toList = none → r.Query.Get "proxy".toList = []) ∧
    (∀ vs, r.Query.lookup "proxy".toList = some ([] :: vs) → r.Query.Get "proxy".toList = []) ∧
    (∀ v vs, v ≠ [] → r.Query.lookup "proxy".toList = some (v :: vs) →
      r.Query.Get "proxy".toList ≠ []) := by
  have hserve := ServeHTTP_lookup dbs r hm hp hn
  rw [hdb] at hserve
  simp only at hserve
  refine ⟨?_, ?_, ?_, ?_, ?_, ?_⟩
  · intro hq
    rw [hserve, if_pos hq]
    rfl
  · intro hq
    rw [hserve, if_neg (not_not.mpr hq)]
    rfl
  · intro db key hmem
    rw [hserve] at hmem
    by_cases hq : r.Query.Get "proxy".toList = []
    · rw [if_neg (not_not.mpr hq)] at hmem
      simp at hmem
    · rw [if_pos hq] at hmem
      simp at hmem
  · intro h
    simp only [Values.Get, h]
  · intro vs h
    simp only [Values.Get, h]
  · intro v vs hv h
    simp only [Values.Get, h]
    exact hv

/-- C4 at the request of the spec: with an empty registry, GET /dbA/key1 is
answered 404 and GET /dbA/key1?proxy=1 is answered 501. -/
theorem ServeHTTP_unknown_db_witness :
    ServeHTTP [] ⟨"GET".toList, "/dbA/key1".toList, []⟩ =
      [HTTPEffect.dbsLookup "dbA".toList, HTTPEffect.WriteHeader 404] ∧
    ServeHTTP [] ⟨"GET".toList, "/dbA/key1".toList, [("proxy".toList, ["1".toList])]⟩ =
      [HTTPEffect.dbsLookup "dbA".toList, HTTPEffect.WriteHeader 501] :=
  ⟨(ServeHTTP_unknown_db [] ⟨"GET".toList, "/dbA/key1".toList, []⟩
      (by decide) (by decide) (by decide) (by decide)).2.1 (by decide),
   (ServeHTTP_unknown_db [] ⟨"GET".toList, "/dbA/key1".toList,
      [("proxy".toList, ["1".toList])]⟩
      (by decide) (by decide) (by decide) (by decide)).1 (by decide)⟩

/-- C5 (path parsing and delegation): for a non-empty name without "/" that
is in the registry and any key, GET "/" ++ name ++ "/" ++ key looks the name
up and calls `serveKey` once, on the unit registered under the name, with
that key, and writes no status; GET "/" ++ name does the same with the
empty key. -/
theorem ServeHTTP_delegates (dbs : DBMap) (name key : GoString) (db : DB) (q : Values)
    (hne : name ≠ []) (hs : '/' ∉ name) (hdb : mapIndex dbs name = some db) :
    ServeHTTP dbs ⟨"GET".toList, "/".toList ++ name ++ "/".toList ++ key, q⟩ =
      [HTTPEffect.dbsLookup name, HTTPEffect.serveKey db key] ∧
    ServeHTTP dbs ⟨"GET".toList, "/".toList ++ name, q⟩ =
      [HTTPEffect.dbsLookup name, HTTPEffect.serveKey db []] := by
  constructor
  · have hpath : "/".toList ++ name ++ "/".toList ++ key = '/' :: (name ++ '/' :: key) := by
      simp [slash_toList]
    have hpp := parsePath_name_key name key hs
    have hp : ('/' :: (name ++ '/' :: key)) ≠ "/".toList := by
      cases name with
      | nil => exact absurd rfl hne
      | cons c t => simp [slash_toList]
    rw [hpath, ServeHTTP_lookup dbs _ rfl hp (by rw [hpp]; exact hne)]
    simp only [hpp, hdb]
  · have hpath : "/".toList ++ name = '/' :: name := by
      simp [slash_toList]
    have hpp := parsePath_name name hs
    have hp : ('/' :: name) ≠ "/".toList := by
      cases name with
      | nil => exact absurd rfl hne
      | cons c t => simp [slash_toList]
    rw [hpath, ServeHTTP_lookup dbs _ rfl hp (by rw [hpp]; exact hne)]
    simp only [hpp, hdb]

/-- C5 at a concrete request: GET /dbA/a/b goes to the unit of dbA with the
key a/b, and GET /dbA with the empty key. -/
theorem ServeHTTP_delegates_witness :
    ServeHTTP [("dbA".toList, 7)] ⟨"GET".toList, "/dbA/a/b".toList, []⟩ =
      [HTTPEffect.dbsLookup "dbA".toList, HTTPEffect.serveKey 7 "a/b".toList] ∧
    ServeHTTP [("dbA".toList, 7)] ⟨"GET".toList, "/dbA".toList, []⟩ =
      [HTTPEffect.dbsLookup "dbA".toList, HTTPEffect.serveKey 7 []] :=
  ServeHTTP_delegates [("dbA".toList, 7)] "dbA".toList "a/b".toList 7 []
    (by decide) (by decide) (by decide)

/-- C6 (requests answered without a registry lookup): the router writes 400
exactly when the method is not GET, or the method is GET, the path is not
"/" and the parsed database name is empty (as for "//key"); a GET of "/"
goes to the status page; in these three cases the answer is that single
effect, with no registry lookup and no `serveKey`, whatever the registry. -/
theorem ServeHTTP_without_lookup (dbs : DBMap) (r : Request) :
    (HTTPEffect.WriteHeader 400 ∈ ServeHTTP dbs r ↔
      (r.Method ≠ "GET".toList ∨
        (r.Method = "GET".toList ∧ r.Path ≠ "/".toList ∧ (parsePath r.Path).1 = []))) ∧
    (r.Method ≠ "GET".toList → ServeHTTP dbs r = [HTTPEffect.WriteHeader 400]) ∧
    (r.Method = "GET".toList → r.Path ≠ "/".toList → (parsePath r.Path).1 = [] →
      ServeHTTP dbs r = [HTTPEffect.WriteHeader 400]) ∧
    (r.Method = "GET".toList → r.Path = "/".toList →
      ServeHTTP dbs r = [HTTPEffect.serveStatus]) ∧
    ((r.Method ≠ "GET".toList ∨ r.Path = "/".toList ∨ (parsePath r.Path).1 = []) →
      (∀ name, HTTPEffect.dbsLookup name ∉ ServeHTTP dbs r) ∧
      (∀ db key, HTTPEffect.serveKey db key ∉ ServeHTTP dbs r) ∧
      ∀ dbs1, ServeHTTP dbs1 r = ServeHTTP dbs r) ∧
    (∀ q, ServeHTTP dbs ⟨"GET".toList, "//key".toList, q⟩ = [HTTPEffect.WriteHeader 400]) := by
  refine ⟨?_, ServeHTTP_not_get dbs r, ServeHTTP_empty_name dbs r, ServeHTTP_root dbs r, ?_, ?_⟩
  · by_cases hm : r.Method = "GET".toList
    · by_cases hp : r.Path = "/".toList
      · rw [ServeHTTP_root dbs r hm hp]
        simp [hm, hp]
      · by_cases hn : (parsePath r.Path).1 = []
        · rw [ServeHTTP_empty_name dbs r hm hp hn]
          constructor
          · intro _
            exact Or.inr ⟨hm, hp, hn⟩
          · intro _
            exact List.mem_singleton.mpr rfl
        · rw [ServeHTTP_lookup dbs r hm hp hn]
          constructor
          · intro hmem
            exfalso
            cases hidx : mapIndex dbs (parsePath r.Path).1 with
            | none =>
              rw [hidx] at hmem
              by_cases hq : r.Query.Get "proxy".toList = []
              · rw [if_neg (not_not.mpr hq)] at hmem
                simp [StatusNotFound] at hmem
              · rw [if_pos hq] at hmem
                simp [StatusNotImplemented] at hmem
            | some db =>
              rw [hidx] at hmem
              simp at hmem
          · rintro (h | ⟨_, _, h⟩)
            · exact absurd hm h
            · exact absurd h hn
    · rw [ServeHTTP_not_get dbs r hm]
      constructor
      · intro _
        exact Or.inl hm
      · intro _
        exact List.mem_singleton.mpr rfl
  · intro hcase
    have hshape : ∀ dbs0 : DBMap, ServeHTTP dbs0 r = [HTTPEffect.WriteHeader 400] ∨
        ServeHTTP dbs0 r = [HTTPEffect.serveStatus] := by
      intro dbs0
      by_cases hm : r.Method = "GET".toList
      · by_cases hp : r.Path = "/".toList
        · exact Or.inr (ServeHTTP_root dbs0 r hm hp)
        · rcases hcase with h | h | h
          · exact absurd hm h
          · exact absurd h hp
          · exact Or.inl (ServeHTTP_empty_name dbs0 r hm hp h)
      · exact Or.inl (ServeHTTP_not_get dbs0 r hm)
    have hsame : ∀ dbs1, ServeHTTP dbs1 r = ServeHTTP dbs r := by
      intro dbs1
      by_cases hm : r.Method = "GET".toList
      · by_cases hp : r.Path = "/".toList
        · rw [ServeHTTP_root dbs1 r hm hp, ServeHTTP_root dbs r hm hp]
        · rcases hcase with h | h | h
          · exact absurd hm h
          · exact absurd h hp
          · rw [ServeHTTP_empty_name dbs1 r hm hp h, ServeHTTP_empty_name dbs r hm hp h]
      · rw [ServeHTTP_not_get dbs1 r hm, ServeHTTP_not_get dbs r hm]
    refine ⟨?_, ?_, hsame⟩
    · intro name hmem
      rcases hshape dbs with h | h <;> rw [h] at hmem <;> simp at hmem
    · intro db key hmem
      rcases hshape dbs with h | h <;> rw [h] at hmem <;> simp at hmem
  · intro q
    exact ServeHTTP_empty_name dbs ⟨"GET".toList, "//key".toList, q⟩ rfl
      (show "//key".toList ≠ "/".toList by decide)
      (show (parsePath "//key".toList).1 = [] by decide)

/-! ## Claims: the refresh cycle -/

/-- C1 (backend failure isolation): when `ListDBs` returns an error,
`refreshAll` leaves the `sequins` as it was, so every name is mapped to the
unit it was mapped to, and the cycle constructs, backfills, refreshes,
closes and deletes no unit and publishes no registry. -/
theorem refreshAll_list_error (ro : RangeOrder) (err : Err) (s : sequins) :
    (refreshAll ro (.error err) s).1 = s ∧
    (refreshAll ro (.error err) s).1.dbs = s.dbs ∧
    (∀ name db, Event.newDB name db ∉ (refreshAll ro (.error err) s).2) ∧
    (∀ db, Event.goBackfill db ∉ (refreshAll ro (.error err) s).2 ∧
      Event.goRefresh db ∉ (refreshAll ro (.error err) s).2 ∧
      Event.close db ∉ (refreshAll ro (.error err) s).2 ∧
      Event.delete db ∉ (refreshAll ro (.error err) s).2) ∧
    (∀ m, Event.swap m ∉ (refreshAll ro (.error err) s).2) := by
  rw [refreshAll_error]
  simp

/-- C2 (registry after a successful cycle): the names of the new registry
are the listed names, one entry each; a listed name that was registered
keeps its unit; a listed name that was not is registered to a unit
constructed in this cycle; that registry is the one published; and no run
of the refresh wrappers, whatever `db.refresh()` returns, changes it. -/
theorem refreshAll_registry (ro : RangeOrder) (dbs : List GoString) (s : sequins) :
    (∀ name, name ∈ mapKeys (refreshAll ro (.ok dbs) s).1.dbs ↔ name ∈ dbs) ∧
    (mapKeys (refreshAll ro (.ok dbs) s).1.dbs).Nodup ∧
    (∀ name db, name ∈ dbs → mapIndex s.dbs name = some db →
      mapIndex (refreshAll ro (.ok dbs) s).1.dbs name = some db) ∧
    (∀ name, name ∈ dbs → mapIndex s.dbs name = none →
      ∃ db, mapIndex (refreshAll ro (.ok dbs) s).1.dbs name = some db ∧
        Event.newDB name db ∈ (refreshAll ro (.ok dbs) s).2) ∧
    List.count (Event.swap (refreshAll ro (.ok dbs) s).1.dbs) (refreshAll ro (.ok dbs) s).2 = 1 ∧
    (∀ (sched : List LoadStep) (calls : List (DB × Phase)) (log : List (DB × Err)),
      (Loads.run sched ⟨(refreshAll ro (.ok dbs) s).1, calls, log⟩).s.dbs =
        (refreshAll ro (.ok dbs) s).1.dbs) := by
  refine ⟨refreshAll_mem_keys ro dbs s, refreshAll_nodup_keys ro dbs s,
    refreshAll_reuse ro dbs s, refreshAll_new ro dbs s, ?_, ?_⟩
  · rw [refreshAll_count_swap, if_pos rfl]
  · intro sched calls log
    exact Loads.run_dbs sched _

/-- C3 (reclamation): in a successful cycle on a well-formed registry, a
unit whose name is in the previous registry and not in the new one is
closed once and deleted once, the swap first, then the close, then the
delete; no other unit is closed or deleted, in particular none that is in
the new registry; and the cycle publishes once, the new registry. -/
theorem refreshAll_reclamation (ro : RangeOrder) (dbs : List GoString) (s : sequins)
    (hwf : s.WF) (u : DB) :
    ((∃ name, mapIndex s.dbs name = some u ∧
        mapIndex (refreshAll ro (.ok dbs) s).1.dbs name = none) →
      List.count (Event.close u) (refreshAll ro (.ok dbs) s).2 = 1 ∧
      List.count (Event.delete u) (refreshAll ro (.ok dbs) s).2 = 1 ∧
      List.Sublist
        [Event.swap (refreshAll ro (.ok dbs) s).1.dbs, Event.close u, Event.delete u]
        (refreshAll ro (.ok dbs) s).2) ∧
    ((¬ ∃ name, mapIndex s.dbs name = some u ∧
        mapIndex (refreshAll ro (.ok dbs) s).1.dbs name = none) →
      Event.close u ∉ (refreshAll ro (.ok dbs) s).2 ∧
      Event.delete u ∉ (refreshAll ro (.ok dbs) s).2) ∧
    (u ∈ mapValues (refreshAll ro (.ok dbs) s).1.dbs →
      Event.close u ∉ (refreshAll ro (.ok dbs) s).2 ∧
      Event.delete u ∉ (refreshAll ro (.ok dbs) s).2) ∧
    (∀ m, List.count (Event.swap m) (refreshAll ro (.ok dbs) s).2 =
      if m = (refreshAll ro (.ok dbs) s).1.dbs then 1 else 0) := by
  obtain ⟨hk, hv, hf⟩ := hwf
  have hnone : (¬ ∃ name, mapIndex s.dbs name = some u ∧
      mapIndex (refreshAll ro (.ok dbs) s).1.dbs name = none) →
      Event.close u ∉ (refreshAll ro (.ok dbs) s).2 ∧
      Event.delete u ∉ (refreshAll ro (.ok dbs) s).2 := by
    intro hno
    constructor
    · intro hc
      obtain ⟨name, hmem, hnew⟩ := refreshAll_close_or_delete_mem ro dbs s u (Or.inl hc)
      exact hno ⟨name, mapIndex_of_mem hk hmem, hnew⟩
    · intro hc
      obtain ⟨name, hmem, hnew⟩ := refreshAll_close_or_delete_mem ro dbs s u (Or.inr hc)
      exact hno ⟨name, mapIndex_of_mem hk hmem, hnew⟩
  refine ⟨?_, hnone, ?_, refreshAll_count_swap ro dbs s⟩
  · rintro ⟨name, hold, hnew⟩
    exact refreshAll_reclaims ro dbs s hv name u hold hnew
  · intro hmem
    apply hnone
    rintro ⟨name, hold, hnew⟩
    obtain ⟨x, hx⟩ := (mem_mapValues_iff _ _).mp hmem
    have hidx := mapIndex_of_mem (refreshAll_nodup_keys ro dbs s) hx
    rcases (refreshAll_provenance ro dbs s x u hidx).2 with h | ⟨_, h⟩
    · have hxn := injective_of_nodup_mapValues _ hv x name u h hold
      rw [hxn, hnew] at hidx
      cases hidx
    · have a := hf u (mem_mapValues_of_mapIndex hold)
      have b := (refreshAll_newDB_fresh ro dbs s x u h).2.2.1
      exact absurd a (not_lt.mpr b)

/-- C3 on the example registry: when the listing is `a`, `b`, the unit 1 of
the dropped name `c` is closed once and deleted once after the swap, and the
unit 0 of the kept name `a` is neither closed nor deleted. -/
theorem refreshAll_reclamation_witness :
    (List.count (Event.close 1)
        (refreshAll RangeOrder.reversed (.ok ["a".toList, "b".toList]) exampleSequins).2 = 1 ∧
      List.count (Event.delete 1)
        (refreshAll RangeOrder.reversed (.ok ["a".toList, "b".toList]) exampleSequins).2 = 1 ∧
      List.Sublist
        [Event.swap
          (refreshAll RangeOrder.reversed (.ok ["a".toList, "b".toList]) exampleSequins).1.dbs,
          Event.close 1, Event.delete 1]
        (refreshAll RangeOrder.reversed (.ok ["a".toList, "b".toList]) exampleSequins).2) ∧
    (Event.close 0 ∉
        (refreshAll RangeOrder.reversed (.ok ["a".toList, "b".toList]) exampleSequins).2 ∧
      Event.delete 0 ∉
        (refreshAll RangeOrder.reversed (.ok ["a".toList, "b".toList]) exampleSequins).2) :=
  ⟨(refreshAll_reclamation RangeOrder.reversed ["a".toList, "b".toList] exampleSequins
      (by decide) 1).1 ⟨"c".toList, by decide, by decide⟩,
   (refreshAll_reclamation RangeOrder.reversed ["a".toList, "b".toList] exampleSequins
      (by decide) 0).2.2.1 (by decide)⟩

/-- C7 (backfill barrier and refresh fan-out): in a successful cycle on a
well-formed registry, `refreshAll` launches one backfill for each unit it
constructs and none for any other unit (none for a unit of the previous
registry), and triggers one refresh for each unit of the candidate map and
none for any other unit. Under every schedule of the cycle's goroutines,
when a refresh is triggered `backfillVersions` has already returned for
every unit constructed in the cycle, and no unit is backfilled twice; the
cycle can always run to its end, and at its end each constructed unit has
been backfilled exactly once, no other unit has been backfilled, and each
unit of the candidate map has had its refresh triggered exactly once. -/
theorem refreshAll_backfill_barrier (ro : RangeOrder) (dbs : List GoString) (s : sequins)
    (hwf : s.WF) (sched : List Turn) :
    (∀ db, (∃ name, Event.newDB name db ∈ (refreshAll ro (.ok dbs) s).2) →
      List.count (Event.goBackfill db) (refreshAll ro (.ok dbs) s).2 = 1) ∧
    (∀ db, (¬ ∃ name, Event.newDB name db ∈ (refreshAll ro (.ok dbs) s).2) →
      Event.goBackfill db ∉ (refreshAll ro (.ok dbs) s).2) ∧
    (∀ db, db ∈ mapValues s.dbs → Event.goBackfill db ∉ (refreshAll ro (.ok dbs) s).2) ∧
    (∀ db, db ∈ mapValues (refreshAll ro (.ok dbs) s).1.dbs →
      List.count (Event.goRefresh db) (refreshAll ro (.ok dbs) s).2 = 1) ∧
    (∀ db, db ∉ mapValues (refreshAll ro (.ok dbs) s).1.dbs →
      Event.goRefresh db ∉ (refreshAll ro (.ok dbs) s).2) ∧
    (∀ pre v post,
      (Cycle.run sched (Cycle.start (refreshAll ro (.ok dbs) s).2)).trace =
        pre ++ Obs.main (Event.goRefresh v) :: post →
      ∀ name db, Event.newDB name db ∈ (refreshAll ro (.ok dbs) s).2 →
        Obs.backfillVersions db ∈ pre) ∧
    (∀ db, List.count (Obs.backfillVersions db)
      (Cycle.run sched (Cycle.start (refreshAll ro (.ok dbs) s).2)).trace ≤ 1) ∧
    (∃ more, (Cycle.run (sched ++ more) (Cycle.start (refreshAll ro (.ok dbs) s).2)).finished) ∧
    ((Cycle.run sched (Cycle.start (refreshAll ro (.ok dbs) s).2)).finished →
      ∀ db,
        ((∃ name, Event.newDB name db ∈ (refreshAll ro (.ok dbs) s).2) →
          List.count (Obs.backfillVersions db)
            (Cycle.run sched (Cycle.start (refreshAll ro (.ok dbs) s).2)).trace = 1) ∧
        ((¬ ∃ name, Event.newDB name db ∈ (refreshAll ro (.ok dbs) s).2) →
          Obs.backfillVersions db ∉
            (Cycle.run sched (Cycle.start (refreshAll ro (.ok dbs) s).2)).trace) ∧
        (db ∈ mapValues (refreshAll ro (.ok dbs) s).1.dbs →
          List.count (Obs.main (Event.goRefresh db))
            (Cycle.run sched (Cycle.start (refreshAll ro (.ok dbs) s).2)).trace = 1) ∧
        (db ∉ mapValues (refreshAll ro (.ok dbs) s).1.dbs →
          Obs.main (Event.goRefresh db) ∉
            (Cycle.run sched (Cycle.start (refreshAll ro (.ok dbs) s).2)).trace)) := by
  have hb := refreshAll_barriered ro dbs s
  have hinv := Cycle.run_inv _ hb sched _ (Cycle.inv_start (refreshAll ro (.ok dbs) s).2)
  have hnew := (refreshAll_WF ro (.ok dbs) s hwf).2.1
  have hone : ∀ db, (∃ name, Event.newDB name db ∈ (refreshAll ro (.ok dbs) s).2) →
      List.count (Event.goBackfill db) (refreshAll ro (.ok dbs) s).2 = 1 :=
    fun db => (refreshAll_count_goBackfill_constructed ro dbs s db).1
  have hzero : ∀ db, (¬ ∃ name, Event.newDB name db ∈ (refreshAll ro (.ok dbs) s).2) →
      List.count (Event.goBackfill db) (refreshAll ro (.ok dbs) s).2 = 0 :=
    fun db => (refreshAll_count_goBackfill_constructed ro dbs s db).2
  have hrefresh1 : ∀ db, db ∈ mapValues (refreshAll ro (.ok dbs) s).1.dbs →
      List.count (Event.goRefresh db) (refreshAll ro (.ok dbs) s).2 = 1 := by
    intro db hdb
    rw [refreshAll_count_goRefresh]
    exact List.count_eq_one_of_mem hnew hdb
  have hrefresh0 : ∀ db, db ∉ mapValues (refreshAll ro (.ok dbs) s).1.dbs →
      List.count (Event.goRefresh db) (refreshAll ro (.ok dbs) s).2 = 0 := by
    intro db hdb
    rw [refreshAll_count_goRefresh]
    exact List.count_eq_zero_of_not_mem hdb
  refine ⟨hone, ?_, ?_, hrefresh1, ?_, ?_, ?_, ?_, ?_⟩
  · intro db hno
    exact List.count_eq_zero.mp (hzero db hno)
  · intro db hold hmem
    have hpos := List.count_pos_iff.mpr hmem
    rw [refreshAll_count_goBackfill, addDBs_count_goBackfill] at hpos
    split_ifs at hpos with hc
    · exact absurd (hwf.2.2 db hold) (not_lt.mpr hc.1)
    · exact absurd hpos (lt_irrefl _)
  · intro db hdb
    exact List.count_eq_zero.mp (hrefresh0 db hdb)
  · intro pre v post htrace name db hcons
    have hmem : Event.goBackfill db ∈ (refreshAll ro (.ok dbs) s).2 :=
      List.count_pos_iff.mp (by rw [hone db ⟨name, hcons⟩]; exact Nat.one_pos)
    exact hinv.barrier pre v post htrace db hmem
  · intro db
    have h1 := Cycle.count_backfillVersions_le _ _ hinv db
    by_cases hc : ∃ name, Event.newDB name db ∈ (refreshAll ro (.ok dbs) s).2
    · rw [hone db hc] at h1
      exact h1
    · rw [hzero db hc] at h1
      exact le_trans h1 (Nat.zero_le 1)
  · obtain ⟨more, hmore⟩ := Cycle.can_finish _ hb _ _ hinv rfl
    exact ⟨more, by rw [Cycle.run_append]; exact hmore⟩
  · intro hf db
    refine ⟨?_, ?_, ?_, ?_⟩
    · intro hc
      rw [Cycle.count_backfillVersions_finished _ _ hinv hf db]
      exact hone db hc
    · intro hc
      apply List.count_eq_zero.mp
      rw [Cycle.count_backfillVersions_finished _ _ hinv hf db]
      exact hzero db hc
    · intro hdb
      rw [Cycle.count_main_finished _ hb sched hf]
      exact hrefresh1 db hdb
    · intro hdb
      apply List.count_eq_zero.mp
      rw [Cycle.count_main_finished _ hb sched hf]
      exact hrefresh0 db hdb

/-- C7 on the example registry with the listing `a`, `b` and a schedule that
runs the cycle to its end: the constructed unit 2 is backfilled once, and
the reused unit 0 is refreshed once and never backfilled. -/
theorem refreshAll_backfill_barrier_witness :
    List.count (Obs.backfillVersions 2)
      (Cycle.run [.main, .main, .backfill 0, .main, .backfill 0, .main, .main, .main, .main,
          .main, .main]
        (Cycle.start
          (refreshAll RangeOrder.insertion (.ok ["a".toList, "b".toList])
            exampleSequins).2)).trace = 1 ∧
    List.count (Event.goRefresh 0)
      (refreshAll RangeOrder.insertion (.ok ["a".toList, "b".toList]) exampleSequins).2 = 1 ∧
    Event.goBackfill 0 ∉
      (refreshAll RangeOrder.insertion (.ok ["a".toList, "b".toList]) exampleSequins).2 :=
  ⟨(((refreshAll_backfill_barrier RangeOrder.insertion ["a".toList, "b".toList]
        exampleSequins (by decide)
        [.main, .main, .backfill 0, .main, .backfill 0, .main, .main, .main, .main,
          .main, .main]).2.2.2.2.2.2.2.2
        (by decide)) 2).1 ⟨"b".toList, by decide⟩,
   (refreshAll_backfill_barrier RangeOrder.insertion ["a".toList, "b".toList]
      exampleSequins (by decide) []).2.2.2.1 0 (by decide),
   (refreshAll_backfill_barrier RangeOrder.insertion ["a".toList, "b".toList]
      exampleSequins (by decide) []).2.2.1 0 (by decide)⟩

/-! ## The steps of the refresh wrapper -/

theorem Loads.run_concat (a b : List LoadStep) (st : Loads) :
    Loads.run (a ++ b) st = Loads.run b (Loads.run a st) := by
  induction a generalizing st with
  | nil => rfl
  | cons t ts ih =>
    simp only [List.cons_append, Loads.run]
    cases st.step t with
    | none => exact ih st
    | some st1 => exact ih st1

/-- Launching an invocation is always possible and adds it, at its start. -/
theorem Loads.go_step (st : Loads) (db : DB) :
    st.step (.go db) = some { st with calls := st.calls ++ [(db, Phase.start)] } := rfl

/-- On a balanced pool an invocation at its start is blocked while no permit
is available, and otherwise takes one permit and enters `db.refresh()`. -/
theorem Loads.acquire_step (K : Nat) (st : Loads) (hb : st.Balanced K) (i : Nat) (db : DB)
    (h : st.calls[i]? = some (db, Phase.start)) :
    (st.available = 0 → st.step (.acquire i) = none) ∧
    (0 < st.available → ∃ st1, st.step (.acquire i) = some st1 ∧
      st1.available + 1 = st.available ∧ st1.held = st.held + 1 ∧
      st1.calls = st.calls.set i (db, Phase.loading true) ∧ st1.log = st.log) := by
  obtain ⟨ch, hch, hcap, hsum, hno⟩ := hb
  constructor
  · intro hav
    simp only [Loads.available, hch] at hav
    simp [Loads.step, h, hch, Chan.recv, hav]
  · intro hav
    have hstep : st.step (.acquire i) = some { st with
        s := { st.s with refreshWorkers := some ⟨ch.cap, ch.len - 1⟩ }
        calls := st.calls.set i (db, Phase.loading true) } := by
      simp only [Loads.available, hch] at hav
      simp [Loads.step, h, hch, Chan.recv, hav]
    have hb1 := Loads.step_balanced K st _ (.acquire i) ⟨ch, hch, hcap, hsum, hno⟩ hstep
    have hs1 := Loads.available_add_held K _ hb1
    have hs0 := Loads.available_add_held K st ⟨ch, hch, hcap, hsum, hno⟩
    have hav1 : (Loads.available { st with
        s := { st.s with refreshWorkers := some ⟨ch.cap, ch.len - 1⟩ }
        calls := st.calls.set i (db, Phase.loading true) }) + 1 = st.available := by
      simp only [Loads.available, hch] at hav ⊢
      omega
    refine ⟨_, hstep, hav1, ?_, rfl, rfl⟩
    omega

/-- When `db.refresh()` returns, with an error or without, the invocation
logs the error and keeps its permit until the deferred release. -/
theorem Loads.returns_step (st : Loads) (i : Nat) (db : DB) (err : Option Err)
    (h : st.calls[i]? = some (db, Phase.loading true)) :
    ∃ st1, st.step (.refreshReturns i err) = some st1 ∧
      st1.available = st.available ∧ st1.held = st.held ∧
      st1.calls = st.calls.set i (db, Phase.releasing) ∧
      st1.log = st.log ++ refreshLog db err := by
  have hstep : st.step (.refreshReturns i err) = some { st with
      calls := st.calls.set i (db, Phase.releasing)
      log := st.log ++ refreshLog db err } := by
    simp [Loads.step, h]
  refine ⟨_, hstep, rfl, ?_, rfl, rfl⟩
  have hs := Loads.held_set st i (db, Phase.releasing) (db, Phase.loading true) h
  simp only [true_or, or_true, if_true, Nat.add_right_cancel_iff] at hs
  simp only [Loads.held]
  exact hs

/-- On a balanced pool the deferred release is never blocked and puts one
permit back. -/
theorem Loads.release_step (K : Nat) (st : Loads) (hb : st.Balanced K) (i : Nat) (db : DB)
    (h : st.calls[i]? = some (db, Phase.releasing)) :
    ∃ st1, st.step (.release i) = some st1 ∧
      st1.available = st.available + 1 ∧ st1.held + 1 = st.held ∧
      st1.calls = st.calls.set i (db, Phase.done) ∧ st1.log = st.log := by
  have hpos := Loads.held_pos_of_releasing st i db h
  obtain ⟨ch, hch, hcap, hsum, hno⟩ := hb
  have hlt : ch.len < ch.cap := by omega
  have hstep : st.step (.release i) = some { st with
      s := { st.s with refreshWorkers := some ⟨ch.cap, ch.len + 1⟩ }
      calls := st.calls.set i (db, Phase.done) } := by
    simp [Loads.step, h, hch, Chan.send, hlt]
  have hb1 := Loads.step_balanced K st _ (.release i) ⟨ch, hch, hcap, hsum, hno⟩ hstep
  have hs1 := Loads.available_add_held K _ hb1
  have hs0 := Loads.available_add_held K st ⟨ch, hch, hcap, hsum, hno⟩
  have hav1 : (Loads.available { st with
      s := { st.s with refreshWorkers := some ⟨ch.cap, ch.len + 1⟩ }
      calls := st.calls.set i (db, Phase.done) }) = st.available + 1 := by
    simp only [Loads.available, hch]
  refine ⟨_, hstep, hav1, ?_, rfl, rfl⟩
  omega

theorem Loads.remaining_set (st : Loads) (i : Nat) (x y : DB × Phase)
    (h : st.calls[i]? = some y) (s1 : sequins) (log : List (DB × Err)) :
    Loads.remaining ⟨s1, st.calls.set i x, log⟩ + y.2.remaining =
      st.remaining + x.2.remaining :=
  sum_map_set_of_getElem? (fun c : DB × Phase => c.2.remaining) st.calls i x y h

/-- No starvation: on a balanced pool with at least one permit, while some
invocation has not returned some invocation can take a step. -/
theorem Loads.some_step (K : Nat) (hK : 0 < K) (st : Loads) (hb : st.Balanced K)
    (hnd : ¬ st.allDone) : ∃ t st1, st.step t = some st1 ∧ st1.remaining < st.remaining := by
  by_cases h1 : ∃ c ∈ st.calls, c.2 = Phase.releasing
  · obtain ⟨⟨db, ph⟩, hc, hph⟩ := h1
    simp only at hph
    subst hph
    obtain ⟨i, hi⟩ := List.mem_iff_getElem?.mp hc
    obtain ⟨st1, hstep, _, _, hcalls, _⟩ := Loads.release_step K st hb i db hi
    refine ⟨_, st1, hstep, ?_⟩
    have := Loads.remaining_set st i (db, Phase.done) (db, Phase.releasing) hi st1.s st1.log
    have hrem : st1.remaining =
        Loads.remaining ⟨st1.s, st.calls.set i (db, Phase.done), st1.log⟩ := by
      simp only [Loads.remaining, hcalls]
    rw [← hrem] at this
    simp only [Phase.remaining] at this
    omega
  · by_cases h2 : ∃ c ∈ st.calls, c.2 = Phase.loading true
    · obtain ⟨⟨db, ph⟩, hc, hph⟩ := h2
      simp only at hph
      subst hph
      obtain ⟨i, hi⟩ := List.mem_iff_getElem?.mp hc
      obtain ⟨st1, hstep, _, _, hcalls, _⟩ := Loads.returns_step st i db none hi
      refine ⟨_, st1, hstep, ?_⟩
      have := Loads.remaining_set st i (db, Phase.releasing) (db, Phase.loading true) hi
        st1.s st1.log
      have hrem : st1.remaining =
          Loads.remaining ⟨st1.s, st.calls.set i (db, Phase.releasing), st1.log⟩ := by
        simp only [Loads.remaining, hcalls]
      rw [← hrem] at this
      simp only [Phase.remaining] at this
      omega
    · have hheld : st.held = 0 := by
        simp only [Loads.held, List.countP_eq_zero]
        intro c hc
        simp only [decide_eq_true_eq, not_or]
        exact ⟨fun h => h2 ⟨c, hc, h⟩, fun h => h1 ⟨c, hc, h⟩⟩
      have hav : 0 < st.available := by
        have := Loads.available_add_held K st hb
        omega
      have hex : ∃ c ∈ st.calls, c.2 ≠ Phase.done := by
        by_contra hcon
        push_neg at hcon
        exact hnd hcon
      obtain ⟨⟨db, ph⟩, hc, hph⟩ := hex
      have hstart : ph = Phase.start := by
        cases ph with
        | start => rfl
        | loading p =>
          cases p with
          | true => exact absurd ⟨(db, Phase.loading true), hc, rfl⟩ h2
          | false => exact absurd rfl (hb.choose_spec.2.2.2 _ hc)
        | releasing => exact absurd ⟨(db, Phase.releasing), hc, rfl⟩ h1
        | done => exact absurd rfl hph
      subst hstart
      obtain ⟨i, hi⟩ := List.mem_iff_getElem?.mp hc
      obtain ⟨st1, hstep, _, _, hcalls, _⟩ := (Loads.acquire_step K st hb i db hi).2 hav
      refine ⟨_, st1, hstep, ?_⟩
      have := Loads.remaining_set st i (db, Phase.loading true) (db, Phase.start) hi
        st1.s st1.log
      have hrem : st1.remaining =
          Loads.remaining ⟨st1.s, st.calls.set i (db, Phase.loading true), st1.log⟩ := by
        simp only [Loads.remaining, hcalls]
      rw [← hrem] at this
      simp only [Phase.remaining] at this
      omega

/-- From every state of a balanced pool with at least one permit some
schedule lets every invocation return. -/
theorem Loads.all_can_return (K : Nat) (hK : 0 < K) (n : Nat) :
    ∀ st : Loads, st.Balanced K → st.remaining ≤ n →
      ∃ sched, (Loads.run sched st).allDone := by
  induction n with
  | zero =>
    intro st hb hn
    by_cases hf : st.allDone
    · exact ⟨[], hf⟩
    · obtain ⟨t, st1, _, h2⟩ := Loads.some_step K hK st hb hf
      omega
  | succ n ih =>
    intro st hb hn
    by_cases hf : st.allDone
    · exact ⟨[], hf⟩
    · obtain ⟨t, st1, h1, h2⟩ := Loads.some_step K hK st hb hf
      obtain ⟨sched, hs⟩ := ih st1 (Loads.step_balanced K st st1 t hb h1) (by omega)
      exact ⟨t :: sched, by simpa only [Loads.run, h1] using hs⟩

/-- An uninterrupted `refresh` on a pool without a permit blocks. -/
theorem refresh_blocks (s : sequins) (cap : Nat) (db : DB) (err : Option Err)
    (hw : s.refreshWorkers = some ⟨cap, 0⟩) : refresh s db err = none := by
  simp [refresh, hw, Chan.recv]

/-! ## The refresh wrapper without a pool -/

theorem Loads.unpooled_start (s : sequins) (h : s.refreshWorkers = none) :
    (Loads.start s).Unpooled :=
  ⟨h, by simp [Loads.start]⟩

/-- Without a pool an invocation at its start enters `db.refresh()` at once. -/
theorem Loads.acquire_step_nil (st : Loads) (hu : st.Unpooled) (i : Nat) (db : DB)
    (h : st.calls[i]? = some (db, Phase.start)) :
    st.step (.acquire i) = some { st with calls := st.calls.set i (db, Phase.loading false) } := by
  simp [Loads.step, h, hu.1]

/-- Without a pool an invocation returns when `db.refresh()` does. -/
theorem Loads.returns_step_nil (st : Loads) (i : Nat) (db : DB) (err : Option Err)
    (h : st.calls[i]? = some (db, Phase.loading false)) :
    st.step (.refreshReturns i err) = some { st with
      calls := st.calls.set i (db, Phase.done)
      log := st.log ++ refreshLog db err } := by
  simp [Loads.step, h]

theorem Loads.step_unpooled (st st1 : Loads) (t : LoadStep) (hu : st.Unpooled)
    (h : st.step t = some st1) : st1.Unpooled := by
  obtain ⟨hn, hph⟩ := hu
  cases t with
  | go db =>
    simp only [Loads.step, Option.some.injEq] at h
    subst h
    refine ⟨hn, ?_⟩
    intro c hc
    rcases List.mem_append.mp hc with h1 | h1
    · exact hph c h1
    · simp only [List.mem_singleton] at h1
      subst h1
      exact Or.inl rfl
  | acquire i =>
    simp only [Loads.step, hn] at h
    split at h
    · simp only [Option.some.injEq] at h
      subst h
      refine ⟨hn, ?_⟩
      intro c hc
      rcases mem_set_of_getElem? _ _ _ _ hc with h1 | h1
      · subst h1
        exact Or.inr (Or.inl rfl)
      · exact hph c h1
    · cases h
  | refreshReturns i err =>
    simp only [Loads.step] at h
    split at h
    · rename_i db permit hget
      simp only [Option.some.injEq] at h
      subst h
      refine ⟨hn, ?_⟩
      intro c hc
      rcases mem_set_of_getElem? _ _ _ _ hc with h1 | h1
      · subst h1
        rcases hph _ (List.getElem?_mem hget) with h2 | h2 | h2
        · cases h2
        · simp only [Phase.loading.injEq] at h2
          subst h2
          exact Or.inr (Or.inr rfl)
        · cases h2
      · exact hph c h1
    · cases h
  | release i =>
    simp only [Loads.step, hn] at h
    split at h <;> cases h

theorem Loads.run_unpooled (sched : List LoadStep) (st : Loads) (hu : st.Unpooled) :
    (Loads.run sched st).Unpooled := by
  induction sched generalizing st with
  | nil => exact hu
  | cons t ts ih =>
    simp only [Loads.run]
    cases h : st.step t with
    | none => exact ih st hu
    | some st1 => exact ih st1 (Loads.step_unpooled st st1 t hu h)

theorem Loads.some_step_nil (st : Loads) (hu : st.Unpooled) (hnd : ¬ st.allDone) :
    ∃ t st1, st.step t = some st1 ∧ st1.remaining < st.remaining := by
  have hex : ∃ c ∈ st.calls, c.2 ≠ Phase.done := by
    by_contra hcon
    push_neg at hcon
    exact hnd hcon
  obtain ⟨⟨db, ph⟩, hc, hph⟩ := hex
  obtain ⟨i, hi⟩ := List.mem_iff_getElem?.mp hc
  rcases hu.2 _ hc with h | h | h
  · simp only at h
    subst h
    refine ⟨_, _, Loads.acquire_step_nil st hu i db hi, ?_⟩
    have := Loads.remaining_set st i (db, Phase.loading false) (db, Phase.start) hi st.s st.log
    simp only [Phase.remaining] at this
    omega
  · simp only at h
    subst h
    refine ⟨_, _, Loads.returns_step_nil st i db none hi, ?_⟩
    have := Loads.remaining_set st i (db, Phase.done) (db, Phase.loading false) hi st.s
      (st.log ++ refreshLog db none)
    simp only [Phase.remaining] at this
    omega
  · exact absurd h hph

theorem Loads.all_can_return_nil (n : Nat) :
    ∀ st : Loads, st.Unpooled → st.remaining ≤ n →
      ∃ sched, (Loads.run sched st).allDone := by
  induction n with
  | zero =>
    intro st hu hn
    by_cases hf : st.allDone
    · exact ⟨[], hf⟩
    · obtain ⟨t, st1, _, h2⟩ := Loads.some_step_nil st hu hf
      omega
  | succ n ih =>
    intro st hu hn
    by_cases hf : st.allDone
    · exact ⟨[], hf⟩
    · obtain ⟨t, st1, h1, h2⟩ := Loads.some_step_nil st hu hf
      obtain ⟨sched, hs⟩ := ih st1 (Loads.step_unpooled st st1 t hu h1) (by omega)
      exact ⟨t :: sched, by simpa only [Loads.run, h1] using hs⟩

theorem refresh_nil (s : sequins) (db : DB) (err : Option Err)
    (hw : s.refreshWorkers = none) : refresh s db err = some (s, refreshLog db err) := by
  simp [refresh, hw]

/-! ## Claims: the permit pool -/

/-- C8 (no permit leak and bounded loads), for a maximum the runtime accepts
as a buffer size: when the cluster and the local store come up and the
configured maximum K > 0 is at most the largest buffer size of `make`, `init` returns with a pool of capacity K holding K
permits; for a larger K it panics in `make`. On that pool an uninterrupted
`refresh` takes a permit, runs `db.refresh()` and puts the permit back,
whatever `db.refresh()` returns, and blocks when no permit is there. In
every state reached by interleaving any number of invocations: every
refresh in flight holds a permit, at most K are in flight, permits available
plus permits held is K, and all K are available once every invocation has
returned; an invocation at its start is blocked while no permit is
available and otherwise takes exactly one; it keeps the permit when
`db.refresh()` returns, with or without an error; its deferred release is
never blocked and puts exactly one permit back; and some continuation lets
every invocation return, with K permits available again. With a maximum of
0, `init` creates no pool, and without a pool no invocation ever waits and
every invocation can return. -/
theorem permits_never_leak (K : Nat) (hK : 0 < K) (env : InitEnv) (s : sequins)
    (hc : env.zkServers = true → env.initCluster = none) (hl : env.initLocalStore = none)
    (sched : List LoadStep) :
    (env.MaxParallelLoads.val = (K : Int) → K ≤ env.chanLimit →
      ∃ s1 evs, init env s = .ok (s1, evs) ∧ s1.refreshWorkers = some ⟨K, K⟩ ∧
        (∀ db err, refresh s1 db err = some (s1, refreshLog db err)) ∧
        (∀ db err,
          Loads.run [.go db, .acquire 0, .refreshReturns 0 err, .release 0] (Loads.start s1) =
            ⟨s1, [(db, Phase.done)], refreshLog db err⟩) ∧
        (∀ db err, refresh { s1 with refreshWorkers := some ⟨K, 0⟩ } db err = none) ∧
        ∀ st, st = Loads.run sched (Loads.start s1) →
          st.inFlight ≤ st.held ∧ st.inFlight ≤ K ∧ st.available + st.held = K ∧
          (st.allDone → st.available = K) ∧
          (∀ db, st.step (.go db) = some { st with calls := st.calls ++ [(db, Phase.start)] }) ∧
          (∀ i db, st.calls[i]? = some (db, Phase.start) →
            (st.available = 0 → st.step (.acquire i) = none) ∧
            (0 < st.available → ∃ st1, st.step (.acquire i) = some st1 ∧
              st1.available + 1 = st.available ∧ st1.held = st.held + 1 ∧
              st1.calls = st.calls.set i (db, Phase.loading true) ∧ st1.log = st.log)) ∧
          (∀ i db err, st.calls[i]? = some (db, Phase.loading true) →
            ∃ st1, st.step (.refreshReturns i err) = some st1 ∧
              st1.available = st.available ∧ st1.held = st.held ∧
              st1.calls = st.calls.set i (db, Phase.releasing) ∧
              st1.log = st.log ++ refreshLog db err) ∧
          (∀ i db, st.calls[i]? = some (db, Phase.releasing) →
            ∃ st1, st.step (.release i) = some st1 ∧
              st1.available = st.available + 1 ∧ st1.held + 1 = st.held ∧
              st1.calls = st.calls.set i (db, Phase.done) ∧ st1.log = st.log) ∧
          (∀ c ∈ st.calls, c.2 ≠ Phase.loading false) ∧
          ∃ more, (Loads.run more st).allDone ∧ (Loads.run more st).available = K) ∧
    (env.MaxParallelLoads.val = (K : Int) → env.chanLimit < K →
      init env s = .error (InitFailure.panicked "makechan: size out of range")) ∧
    (env.MaxParallelLoads.val = 0 → s.refreshWorkers = none →
      ∃ s1 evs, init env s = .ok (s1, evs) ∧ s1.refreshWorkers = none ∧
        (∀ db err, refresh s1 db err = some (s1, refreshLog db err)) ∧
        ∀ st, st = Loads.run sched (Loads.start s1) →
          st.s.refreshWorkers = none ∧
          (∀ i db, st.calls[i]? = some (db, Phase.start) →
            st.step (.acquire i) =
              some { st with calls := st.calls.set i (db, Phase.loading false) }) ∧
          (∀ i db err, st.calls[i]? = some (db, Phase.loading false) →
            st.step (.refreshReturns i err) = some { st with
              calls := st.calls.set i (db, Phase.done)
              log := st.log ++ refreshLog db err }) ∧
          ∃ more, (Loads.run more st).allDone) := by
  refine ⟨?_, fun hmax hlim => init_too_large K env s hc hl hmax hlim, ?_⟩
  · intro hmax hlim
    obtain ⟨s1, evs, hinit, hpool⟩ : ∃ s1 evs, init env s = .ok (s1, evs) ∧
        s1.refreshWorkers = some ⟨K, K⟩ :=
      ⟨_, _, init_pos K env s hK hc hl hmax hlim, refreshAll_refreshWorkers _ _ _⟩
    have hseq : ∀ db err, refresh s1 db err = some (s1, refreshLog db err) :=
      fun db err => refresh_restores s1 ⟨K, K⟩ db err hpool hK (le_refl K)
    refine ⟨s1, evs, hinit, hpool, hseq,
      fun db err => refresh_eq_run s1 s1 db err _ (hseq db err),
      fun db err => refresh_blocks _ K db err rfl, ?_⟩
    intro st hst
    have hb : st.Balanced K := by
      rw [hst]
      exact Loads.run_balanced K sched (Loads.start s1) (Loads.balanced_start K s1 hpool)
    have hsum := Loads.available_add_held K st hb
    have hfl := Loads.inFlight_le_held K st hb
    refine ⟨hfl, by omega, hsum, ?_, Loads.go_step st, Loads.acquire_step K st hb,
      fun i db err h => Loads.returns_step st i db err h, Loads.release_step K st hb, ?_, ?_⟩
    · intro hd
      have := Loads.held_eq_zero_of_allDone _ hd
      omega
    · obtain ⟨_, _, _, _, hno⟩ := hb
      exact hno
    · obtain ⟨more, hmore⟩ := Loads.all_can_return K hK st.remaining st hb (le_refl _)
      refine ⟨more, hmore, ?_⟩
      have hb1 := Loads.run_balanced K more st hb
      have h1 := Loads.available_add_held K _ hb1
      have h2 := Loads.held_eq_zero_of_allDone _ hmore
      omega
  · intro hmax hn
    obtain ⟨s1, evs, hinit, hpool⟩ : ∃ s1 evs, init env s = .ok (s1, evs) ∧
        s1.refreshWorkers = none :=
      ⟨_, _, init_zero env s hc hl hmax, (refreshAll_refreshWorkers _ _ _).trans hn⟩
    refine ⟨s1, evs, hinit, hpool, fun db err => refresh_nil s1 db err hpool, ?_⟩
    intro st hst
    have hu : st.Unpooled := by
      rw [hst]
      exact Loads.run_unpooled sched (Loads.start s1) (Loads.unpooled_start s1 hpool)
    exact ⟨hu.1, Loads.acquire_step_nil st hu,
      fun i db err h => Loads.returns_step_nil st i db err h,
      Loads.all_can_return_nil st.remaining st hu (le_refl _)⟩

/-- C8 for a maximum of two on the state of `newSequins`, with
three invocations of which one fails: `init` returns with two permits, and
at the end of the schedule at most two refreshes are in flight and permits
available plus permits held is two. -/
theorem permits_never_leak_witness :
    ∃ s1 evs, init exampleInit newSequins = .ok (s1, evs) ∧
      s1.refreshWorkers = some ⟨2, 2⟩ ∧
      (Loads.run exampleLoads (Loads.start s1)).inFlight ≤ 2 ∧
      (Loads.run exampleLoads (Loads.start s1)).available +
        (Loads.run exampleLoads (Loads.start s1)).held = 2 :=
  match (permits_never_leak 2 (by decide) exampleInit newSequins (by decide) (by decide)
      exampleLoads).1 rfl (by decide) with
  | ⟨s1, evs, h1, h2, _, _, _, h6⟩ =>
    ⟨s1, evs, h1, h2, (h6 _ rfl).2.1, (h6 _ rfl).2.2.1⟩

/-- C8 at a configured maximum of 2^62, which is positive: with the cluster
and the local store up, `init` does not create a pool of 2^62 permits; it
panics in `make(chan bool, maxLoads)`. -/
theorem permits_pool_too_large :
    0 < hugeInit.MaxParallelLoads.val ∧
    (hugeInit.zkServers = true → hugeInit.initCluster = none) ∧
    hugeInit.initLocalStore = none ∧
    init hugeInit newSequins =
      .error (InitFailure.panicked "makechan: size out of range") ∧
    ¬ ∃ s1 evs, init hugeInit newSequins = .ok (s1, evs) := by
  have hinit : init hugeInit newSequins =
      .error (InitFailure.panicked "makechan: size out of range") :=
    init_too_large 4611686018427387904 hugeInit newSequins (by decide) (by decide) rfl
      (by decide)
  refine ⟨by decide, by decide, by decide, hinit, ?_⟩
  rintro ⟨s1, evs, h⟩
  rw [hinit] at h
  cases h

/-! ## Claims: across cycles -/

/-- C9 (exactly-once reclamation across cycles): on a well-formed registry
in which `name` is registered to `u`, a successful cycle G whose listing
lacks `name` closes `u` once and deletes it once, after its swap; no cycle
after G, successful or not, closes, deletes, backfills, refreshes or
constructs `u`; after any later cycle whose listing has `name`, `name` is
registered to a unit other than `u`, constructed for `name` by a cycle after
G; and the first later cycle whose listing has `name` constructs that unit
itself. -/
theorem reclaimed_once_across_cycles (s : sequins) (hwf : s.WF) (name : GoString) (u : DB)
    (hu : mapIndex s.dbs name = some u) (roG : RangeOrder) (listG : List GoString)
    (hG : name ∉ listG) (later : List (RangeOrder × Except Err (List GoString))) :
    (List.count (Event.close u) (refreshAll roG (.ok listG) s).2 = 1 ∧
      List.count (Event.delete u) (refreshAll roG (.ok listG) s).2 = 1 ∧
      List.Sublist
        [Event.swap (refreshAll roG (.ok listG) s).1.dbs, Event.close u, Event.delete u]
        (refreshAll roG (.ok listG) s).2) ∧
    (∀ evs ∈ (refreshCycles later (refreshAll roG (.ok listG) s).1).2,
      Event.close u ∉ evs ∧ Event.delete u ∉ evs ∧ Event.goBackfill u ∉ evs ∧
      Event.goRefresh u ∉ evs ∧ ∀ n, Event.newDB n u ∉ evs) ∧
    (∀ mid roH listH rest, later = mid ++ (roH, .ok listH) :: rest → name ∈ listH →
      ∃ u1,
        mapIndex (refreshCycles (mid ++ [(roH, .ok listH)])
          (refreshAll roG (.ok listG) s).1).1.dbs name = some u1 ∧
        u1 ≠ u ∧
        ∃ evs ∈ (refreshCycles (mid ++ [(roH, .ok listH)])
          (refreshAll roG (.ok listG) s).1).2, Event.newDB name u1 ∈ evs) ∧
    (∀ mid roH listH rest, later = mid ++ (roH, .ok listH) :: rest → name ∈ listH →
      (∀ c ∈ mid, ∀ l, c.2 = .ok l → name ∉ l) →
      ∃ u1,
        Event.newDB name u1 ∈
          (refreshAll roH (.ok listH)
            (refreshCycles mid (refreshAll roG (.ok listG) s).1).1).2 ∧
        mapIndex (refreshAll roH (.ok listH)
          (refreshCycles mid (refreshAll roG (.ok listG) s).1).1).1.dbs name = some u1 ∧
        u1 ≠ u) := by
  obtain ⟨hgone, hnotin, hlt⟩ := refreshAll_dropped roG listG s hwf name u hu hG
  refine ⟨refreshAll_reclaims roG listG s hwf.2.1 name u hu hgone,
    (refreshCycles_untouched later _ u hnotin hlt).2, ?_, ?_⟩
  rotate_left
  · intro mid roH listH rest _ hH hmid
    have habs := refreshCycles_absent mid _ name hgone hmid
    obtain ⟨u1, h1, h2⟩ := refreshAll_new roH listH _ name hH habs
    refine ⟨u1, h2, h1, ?_⟩
    rintro rfl
    have hun := refreshCycles_untouched (mid ++ [(roH, .ok listH)]) _ u1 hnotin hlt
    rw [refreshCycles_append] at hun
    simp only [refreshCycles_cons, refreshCycles] at hun
    exact hun.1 (mem_mapValues_of_mapIndex h1)
  intro mid roH listH rest _ hH
  have hkey : name ∈ mapKeys (refreshCycles (mid ++ [(roH, .ok listH)])
      (refreshAll roG (.ok listG) s).1).1.dbs := by
    rw [refreshCycles_append]
    simp only [refreshCycles_cons, refreshCycles]
    exact (refreshAll_mem_keys roH listH _ name).mpr hH
  cases hidx : mapIndex (refreshCycles (mid ++ [(roH, .ok listH)])
      (refreshAll roG (.ok listG) s).1).1.dbs name with
  | none => exact absurd hkey ((mapIndex_eq_none_iff _ _).mp hidx)
  | some u1 =>
    refine ⟨u1, rfl, ?_, ?_⟩
    · rintro rfl
      exact (refreshCycles_untouched (mid ++ [(roH, .ok listH)]) _ u1 hnotin hlt).1
        (mem_mapValues_of_mapIndex hidx)
    · rcases refreshCycles_provenance _ _ name u1 hidx with h | h
      · rw [hgone] at h
        cases h
      · exact h

/-- C9 on the example registry: the name `c` (unit 1) is dropped by a cycle
listing `a`, `b` and listed again two cycles later; unit 1 is closed once
in the first cycle and `c` comes back as another unit. -/
theorem reclaimed_once_across_cycles_witness :
    List.count (Event.close 1)
      (refreshAll RangeOrder.insertion (.ok ["a".toList, "b".toList]) exampleSequins).2 = 1 ∧
    ∃ u1,
      mapIndex (refreshCycles
        [(RangeOrder.reversed, .ok ["a".toList]),
          (RangeOrder.insertion, .ok ["c".toList, "a".toList])]
        (refreshAll RangeOrder.insertion (.ok ["a".toList, "b".toList])
          exampleSequins).1).1.dbs "c".toList = some u1 ∧ u1 ≠ 1 :=
  ⟨(reclaimed_once_across_cycles exampleSequins (by decide) "c".toList 1 (by decide)
      RangeOrder.insertion ["a".toList, "b".toList] (by decide)
      [(RangeOrder.reversed, .ok ["a".toList]),
        (RangeOrder.insertion, .ok ["c".toList, "a".toList])]).1.1,
   Exists.elim
    ((reclaimed_once_across_cycles exampleSequins (by decide) "c".toList 1 (by decide)
      RangeOrder.insertion ["a".toList, "b".toList] (by decide)
      [(RangeOrder.reversed, .ok ["a".toList]),
        (RangeOrder.insertion, .ok ["c".toList, "a".toList])]).2.2.1
      [(RangeOrder.reversed, .ok ["a".toList])] RangeOrder.insertion
      ["c".toList, "a".toList] [] rfl (by decide))
    (fun u1 h => ⟨u1, h.1, h.2.1⟩)⟩

/-! ## Listings with a repeated name -/

theorem addDBs_newDB_unique_of_nodup (sdbs : DBMap) (names : List GoString) (acc : DBMap)
    (n : Nat) (hnd : names.Nodup) (x : GoString) (db db1 : DB)
    (hx : Event.newDB x db ∈ (addDBs sdbs names acc n).2.2)
    (hy : Event.newDB x db1 ∈ (addDBs sdbs names acc n).2.2) : db = db1 := by
  induction names generalizing acc n with
  | nil => simp [addDBs] at hx
  | cons z rest ih =>
    rw [List.nodup_cons] at hnd
    cases hz : mapIndex sdbs z with
    | some d =>
      rw [addDBs_cons_some _ _ _ _ _ _ hz] at hx hy
      exact ih _ _ hnd.2 hx hy
    | none =>
      rw [addDBs_cons_none _ _ _ _ _ hz] at hx hy
      simp only [List.mem_cons, Event.newDB.injEq, reduceCtorEq, false_or] at hx hy
      rcases hx with ⟨rfl, rfl⟩ | hx
      · rcases hy with ⟨_, rfl⟩ | hy
        · rfl
        · exact absurd (addDBs_newDB_mem _ _ _ _ _ _ hy).1 hnd.1
      · rcases hy with ⟨rfl, rfl⟩ | hy
        · exact absurd (addDBs_newDB_mem _ _ _ _ _ _ hx).1 hnd.1
        · exact ih _ _ hnd.2 hx hy

/-- When no name is listed twice, every unit a cycle constructs is in the
registry the cycle publishes, under the name it was constructed for. -/
theorem refreshAll_constructed_published_of_nodup (ro : RangeOrder) (dbs : List GoString)
    (s : sequins) (hnd : dbs.Nodup) (name : GoString) (db : DB)
    (h : Event.newDB name db ∈ (refreshAll ro (.ok dbs) s).2) :
    mapIndex (refreshAll ro (.ok dbs) s).1.dbs name = some db := by
  obtain ⟨hin, hold, _, _⟩ := refreshAll_newDB_fresh ro dbs s name db h
  obtain ⟨db1, h1, h2⟩ := refreshAll_new ro dbs s name hin hold
  have := addDBs_newDB_unique_of_nodup s.dbs dbs [] s.allocated hnd name db db1
    ((refreshAll_newDB_mem _ _ _ _ _).mp h) ((refreshAll_newDB_mem _ _ _ _ _).mp h2)
  rw [this]
  exact h1

/-! ## Claims: listings with a repeated name -/

/-- C10 at the listing `a`, `a` on the state of `newSequins`: the cycle
constructs two units for `a` and launches a backfill for each; the registry
it publishes holds only the second; the first is never refreshed, closed or
deleted by the cycle. -/
theorem refreshAll_repeated_name_orphans_unit :
    Event.newDB "a".toList 0 ∈
      (refreshAll RangeOrder.insertion (.ok ["a".toList, "a".toList]) newSequins).2 ∧
    Event.goBackfill 0 ∈
      (refreshAll RangeOrder.insertion (.ok ["a".toList, "a".toList]) newSequins).2 ∧
    Event.newDB "a".toList 1 ∈
      (refreshAll RangeOrder.insertion (.ok ["a".toList, "a".toList]) newSequins).2 ∧
    (refreshAll RangeOrder.insertion (.ok ["a".toList, "a".toList]) newSequins).1.dbs =
      [("a".toList, 1)] ∧
    0 ∉ mapValues
      (refreshAll RangeOrder.insertion (.ok ["a".toList, "a".toList]) newSequins).1.dbs ∧
    Event.goRefresh 0 ∉
      (refreshAll RangeOrder.insertion (.ok ["a".toList, "a".toList]) newSequins).2 ∧
    Event.close 0 ∉
      (refreshAll RangeOrder.insertion (.ok ["a".toList, "a".toList]) newSequins).2 ∧
    Event.delete 0 ∉
      (refreshAll RangeOrder.insertion (.ok ["a".toList, "a".toList]) newSequins).2 := by
  decide

end Sequins
